import Mathlib

/-!
Verification of the `ecc` elliptic-curve library.

This file is a shallow embedding of the library's core: the dense
polynomial ring over ℤ with on-demand reduction mod m (`polynomial.go`),
the Jacobian-coordinate curve group law (`curve.go`), the ECDLP solvers
(`dlp.go`), and Schoof's algorithm with its endomorphism-ring arithmetic
and division polynomials (`schoof.go`).  Go `big.Int` values are embedded
as `Int`; `big.Int.Mod` with a positive modulus is Euclidean remainder,
which is Lean's `Int.emod` (`%`).  Go `while` loops are embedded as
fuelled structural recursions; every fuel bound used below is shown (or
checked by evaluation) to be large enough for the executions the theorems
talk about.

Theorems about the specification's claims follow the definitions.
-/

set_option maxRecDepth 100000

namespace ECC

/-! ### Integer helpers

`big.Int` primitives used by the library: extended gcd, modular inverse,
integer square root, and the byte decomposition that drives the various
square-and-multiply loops. -/

/-- Extended Euclidean algorithm, fuelled.  `egcd fuel a b = (g, x, y)`
with `g = x*a + y*b`; for `0 ≤ b < fuel` and `0 ≤ a`, `g = gcd a b`. -/
def egcd : Nat → Int → Int → Int × Int × Int
  | 0, a, _ => (a, 1, 0)
  | fuel+1, a, b =>
    if b = 0 then (a, 1, 0)
    else
      let r := egcd fuel b (a % b)
      (r.1, r.2.2, r.2.1 - a / b * r.2.2)

/-- Models `big.Int.ModInverse g n`: the inverse of `g` mod `n` in `[0, n)`
when `gcd(g, n) = 1`, and `0` otherwise (on failure Go leaves the receiver
unchanged, and every receiver in this library is a fresh zero). -/
def intModInverse (a m : Int) : Int :=
  let a' := a % m
  if Int.gcd a' m = 1 then (egcd (m.toNat + 1) a' m).2.1 % m else 0

/-- Largest `s` with `s ≤ t` and `s*s ≤ n`, by linear search. -/
def intSqrtAux (n : Nat) : Nat → Nat → Nat
  | 0, s => s
  | fuel+1, s => if (s+1)*(s+1) ≤ n then intSqrtAux n fuel (s+1) else s

/-- Models `big.Int.Sqrt`: the floor of the square root. -/
def intSqrt (n : Nat) : Nat := intSqrtAux n n 0

/-- Trial-division worker for `isPrime`. -/
def isPrimeAux (n : Nat) : Nat → Nat → Bool
  | 0, _ => true
  | fuel+1, d =>
    if n < d * d then true
    else if n % d = 0 then false
    else isPrimeAux n fuel (d+1)

/-- Exact primality by trial division.  Models `big.Int.ProbablyPrime`,
which is deterministic and exact on the word-sized inputs the library
feeds it. -/
def isPrime (n : Nat) : Bool := 2 ≤ n && isPrimeAux n n 2

/-- Modelled from the spec: `NextPrime` ("enumerate primes ℓ = 2, 3, 5, …";
"next-prime iteration").  The exported `NextPrime` used by `Schoof` is not
under src/; only its unexported twin `nextPrime` is, and this definition
agrees with it: the smallest prime strictly above the argument. -/
def NextPrimeAux : Nat → Nat → Nat
  | 0, n => n
  | fuel+1, n => if isPrime n then n else NextPrimeAux fuel (n+1)

/-- Modelled from the spec: smallest prime `> n` (see `NextPrimeAux`). -/
def NextPrime (n : Nat) : Nat := NextPrimeAux (2*n + 3) (n+1)

/-- Little-endian base-256 digits, fuelled by the number itself. -/
def natBytesLE : Nat → Nat → List Nat
  | 0, _ => []
  | _+1, 0 => []
  | fuel+1, n => n % 256 :: natBytesLE fuel (n / 256)

/-- Models `big.Int.Bytes`: minimal big-endian byte string (empty for 0). -/
def natBytes (n : Nat) : List Nat := (natBytesLE n n).reverse

/-- Little-endian bits, fuelled by the number itself. -/
def natBitsLE : Nat → Nat → List Bool
  | 0, _ => []
  | _+1, 0 => []
  | fuel+1, n => (n % 2 = 1) :: natBitsLE fuel (n / 2)

/-- The bits of `n` strictly below its most significant set bit, most
significant first: exactly the bits consumed by the Go pattern that scans
`n.Bytes()` past the leading 1 (used by `ScalarMul`). -/
def bitsBelowMSB (n : Nat) : List Bool := (natBitsLE n n).dropLast.reverse

/-- The high bit `b & 0x80` of a byte value. -/
def byteBit (b : Nat) : Bool := b / 128 % 2 = 1

/-! ### The polynomial ring (polynomial.go)

A polynomial is a dense coefficient list, constant term first, exactly as
the Go type `Poly []*big.Int`.  All lists arising from the library are
nonempty; the zero polynomial is `[0]`. -/

abbrev Poly := List Int

/-- Worker for `trim`: drop leading zeros of the reversed list, but keep
the final (constant) entry. -/
def dzk : Poly → Poly
  | [] => []
  | [a] => [a]
  | a :: p => if a = 0 then dzk p else a :: p

/-- Models `Poly.trim`: remove high zero coefficients, never removing the
constant term. -/
def trim (p : Poly) : Poly := (dzk p.reverse).reverse

/-- Models `Poly.sanitize`: reduce every coefficient mod `m`, then trim. -/
def sanitize (p : Poly) (m : Int) : Poly := trim (p.map (· % m))

/-- Models `Poly.Deg`: `len - 1`, also for unreduced lists. -/
def Deg (p : Poly) : Nat := p.length - 1

/-- Models `Poly.isZero`: degree 0 with zero constant. -/
def isZero (p : Poly) : Bool := p == [0]

/-- Coefficient access with default 0 (Go reads only in-range indices;
the default only shows up in specifications). -/
def coeff (p : Poly) (i : Nat) : Int := p.getD i 0

/-- Coefficient comparison from the constant term up, for equal-length
lists (worker for `Cmp`). -/
def cmpCoeffs : Poly → Poly → Int
  | [], _ => 0
  | _, [] => 0
  | a :: p, b :: q => if a < b then -1 else if b < a then 1 else cmpCoeffs p q

/-- Models `Poly.Cmp`: longer is larger, ties broken by the first
differing coefficient scanning from index 0. -/
def Cmp (p q : Poly) : Int :=
  if q.length < p.length then 1
  else if p.length < q.length then -1
  else cmpCoeffs p q

/-- Pointwise sum with the low `min` length reduced mod `m` and the tail
of the first argument passed through, as in Go's `Add` whose final mod
loop runs only over `len(q)` entries. -/
def addCore : Poly → Poly → Int → Poly
  | p, [], _ => p
  | [], _, _ => []
  | a :: p, b :: q, m => ((a + b) % m) :: addCore p q m

/-- Models `Poly.Add` (the Go method first swaps so that the `Cmp`-larger
operand is the receiver). -/
def Poly.Add (p q : Poly) (m : Int) : Poly :=
  if Cmp p q < 0 then trim (addCore q p m) else trim (addCore p q m)

/-- Models `Poly.Neg`: pointwise negation, no reduction, no trim. -/
def Poly.Neg (p : Poly) : Poly := p.map (fun a => -a)

/-- Pointwise difference with every entry reduced mod `m`.  Both branches
of the Go `Sub` (swap or not) compute exactly this. -/
def subCore : Poly → Poly → Int → Poly
  | p, [], m => p.map (· % m)
  | [], q, m => q.map (fun b => (-b) % m)
  | a :: p, b :: q, m => ((a - b) % m) :: subCore p q m

/-- Models `Poly.Sub`: pointwise `p - q` reduced mod `m`, trimmed. -/
def Poly.Sub (p q : Poly) (m : Int) : Poly := trim (subCore p q m)

/-- Exact pointwise sum with padding (used to build convolutions). -/
def padAdd : List Int → List Int → List Int
  | p, [] => p
  | [], q => q
  | a :: p, b :: q => (a + b) :: padAdd p q

/-- The integer convolution `r[i+j] += p[i]*q[j]` of Go's `Mul`, before
its final `sanitize`. -/
def conv : Poly → Poly → Poly
  | [], _ => []
  | a :: p, q => padAdd (q.map (a * ·)) (0 :: conv p q)

/-- Models `Poly.Mul`: schoolbook convolution followed by `sanitize`. -/
def Poly.Mul (p q : Poly) (m : Int) : Poly := sanitize (conv p q) m

/-- Models `Poly.MulInt`. -/
def MulInt (p : Poly) (a : Int) (m : Int) : Poly := Poly.Mul p [a] m

/-- Eight square-(and-multiply) steps on one byte, high bit first, the
byte shifted left (with truncation) each step, as in Go. -/
def expBits : Nat → Nat → Poly → Poly → Int → Poly
  | 0, _, r, _, _ => r
  | k+1, b, r, p, m =>
    let r1 := Poly.Mul r r m
    let r2 := if byteBit b then Poly.Mul r1 p m else r1
    expBits k (b % 128 * 2) r2 p m

/-- Byte loop of `Poly.Exp`. -/
def expBytes : List Nat → Poly → Poly → Int → Poly
  | [], r, _, _ => r
  | b :: bs, r, p, m => expBytes bs (expBits 8 b r p m) p m

/-- Models `Poly.Exp`: square-and-multiply over the big-endian bytes of
`e`, coefficients reduced mod `m` (no polynomial modulus). -/
def Poly.Exp (p : Poly) (e : Int) (m : Int) : Poly :=
  trim (expBytes (natBytes e.toNat) [1] p m)

/-- One long-division loop of Go's `Poly.Div`; each iteration clears the
top coefficient of `rem` using the modular inverse of the divisor's
leading coefficient (`0` if that inverse does not exist, as in Go where
the failed `ModInverse` leaves the fresh zero receiver unchanged). -/
def divLoop : Nat → Poly → Poly → Poly → Int → Poly × Poly
  | 0, quo, rem, _, _ => (quo, rem)
  | fuel+1, quo, rem, q, m =>
    let td := rem.length - 1
    let qd := q.length - 1
    if td < qd ∨ isZero rem = true then (quo, rem)
    else
      let r := intModInverse (coeff q qd) m * coeff rem td % m
      let u := List.replicate (td - qd) 0 ++ q.map (· * r)
      divLoop fuel (quo.set (td - qd) r) (Poly.Sub rem u m) q m

/-- Models `Poly.Div`: the dividend's coefficients are first reduced mod
`m` (Go's discarded-`sanitize` quirk: the reduction sticks, the trim does
not), then long division runs.  The fuel `len p` covers every terminating
Go execution, since the remainder's length drops each iteration. -/
def Poly.Div (p q : Poly) (m : Int) : Poly × Poly :=
  let ps := p.map (· % m)
  if ps.length < q.length then ([0], ps)
  else divLoop ps.length (List.replicate (ps.length - q.length + 1) 0) ps q m

/-- Models `Poly.Monic`: divide by the leading coefficient. -/
def Monic (p : Poly) (m : Int) : Poly := (Poly.Div p [coeff p (Deg p)] m).1

/-- Worker for `Deriv`: `r[i-1] = p[i]*i mod m`. -/
def derivCore : Poly → Int → Int → Poly
  | [], _, _ => []
  | a :: p, i, m => (a * i % m) :: derivCore p (i+1) m

/-- Models `Poly.Deriv`: formal derivative with reduced coefficients. -/
def Poly.Deriv (p : Poly) (m : Int) : Poly :=
  match p with
  | [] => [0]
  | [_] => [0]
  | _ :: rest => trim (derivCore rest 1 m)

/-- The shared Euclidean loop of `ExtendedGCD` and `ModInverse`: the Go
pairs `(oldR, r)`, `(oldS, s)`, `(oldT, t)` (respectively `(r, newR)`,
`(t, newT)`) step by `old, cur = cur, old - quo*cur` until `cur` is the
zero polynomial. -/
def egcdPolyLoop :
    Nat → Poly → Poly → Poly → Poly → Poly → Poly → Int → Poly × Poly × Poly
  | 0, oldR, _, oldS, _, oldT, _, _ => (oldR, oldS, oldT)
  | fuel+1, oldR, r, oldS, s, oldT, t, m =>
    if isZero r then (oldR, oldS, oldT)
    else
      let quo := (Poly.Div oldR r m).1
      egcdPolyLoop fuel r (Poly.Sub oldR (Poly.Mul quo r m) m)
        s (Poly.Sub oldS (Poly.Mul quo s m) m)
        t (Poly.Sub oldT (Poly.Mul quo t m) m) m

/-- Models `Poly.ExtendedGCD`: Euclid with Bezout tracking; the returned
gcd is the last nonzero remainder made monic, while the cofactors are
returned unscaled. -/
def ExtendedGCD (p q : Poly) (m : Int) : Poly × Poly × Poly :=
  let r := egcdPolyLoop (p.length + q.length + 2) p q [1] [0] [0] [1] m
  (Monic r.1 m, r.2.1, r.2.2)

/-- Models `Poly.GCD`. -/
def GCD (p q : Poly) (m : Int) : Poly := (ExtendedGCD p q m).1

/-- Models `Poly.ModInverse p h m`: `none` when the Euclidean remainder of
`(h, p)` has positive degree (`p` is not a unit mod `h`), else the Bezout
cofactor normalised so that `p * result ≡ 1 (mod h)`. -/
def ModInverse (p h : Poly) (m : Int) : Option Poly :=
  if m = 1 then some [0]
  else
    let r := egcdPolyLoop (h.length + p.length + 2) h p [1] [0] [0] [1] m
    if 1 < r.1.length then none
    else some (Poly.Mul (Poly.Div [1] r.1 m).1 r.2.2 m)

/-! ### The curve group law (curve.go)

Affine points are coordinate pairs in `[0, p)`; the sentinel `(0, 0)` is
the point at infinity.  Jacobian triples `(X, Y, Z)` represent
`(X/Z², Y/Z³)` when `Z ≠ 0`.  The Go routines interleave conditional
`+P` sign fixups with a final `Mod`; since every output coefficient
passes through a final `% P`, the embedding computes the same values with
`%` alone. -/

structure Curve where
  P : Int
  A : Int
  B : Int
  Gx : Int := 0
  Gy : Int := 0
  N : Int := 0
  H : Int := 0
  BitSize : Nat := 0

/-- Models `Curve.evaluatePolynomial`: `x³ + Ax + B mod P`. -/
def evaluatePolynomial (c : Curve) (x : Int) : Int :=
  (x * x * x + x * c.A + c.B) % c.P

/-- Models `Curve.IsOnCurve`: coordinates in range and `y² ≡ x³+Ax+B`;
false for the sentinel `(0,0)` whenever `B ≢ 0`. -/
def IsOnCurve (c : Curve) (x y : Int) : Bool :=
  if x < 0 || c.P ≤ x || y < 0 || c.P ≤ y then false
  else y * y % c.P == evaluatePolynomial c x

/-- Models `zForAffine`: `0` for the sentinel, else `1`. -/
def zForAffine (x y : Int) : Int := if x = 0 && y = 0 then 0 else 1

/-- Models `Curve.affineFromJacobian`. -/
def affineFromJacobian (c : Curve) (x y z : Int) : Int × Int :=
  if z = 0 then (0, 0)
  else
    let zinv := intModInverse z c.P
    let zinvsq := zinv * zinv
    (x * zinvsq % c.P, y * zinvsq * zinv % c.P)

/-- Models `Curve.doubleJacobian` (dbl-2007-bl). -/
def doubleJacobian (c : Curve) (x y z : Int) : Int × Int × Int :=
  let P := c.P
  let xx := x * x % P
  let yy := y * y % P
  let yyyy := yy * yy % P
  let zz := z * z % P
  let zzzz := zz * zz % P
  let s := ((x + yy) * (x + yy) - xx - yyyy) * 2 % P
  let m := (2 * xx + xx + c.A * zzzz) % P
  let t := (m * m - 2 * s) % P
  let x3 := t
  let y3 := (m * (s - t) - 8 * yyyy) % P
  let z3 := ((y + z) * (y + z) - yy - zz) % P
  (x3, y3, z3)

/-- Models `Curve.addJacobian` (add-2007-bl), including the `Z = 0`
shortcuts and the fallthrough to doubling when both `u` and `s`
coincide. -/
def addJacobian (c : Curve) (x1 y1 z1 x2 y2 z2 : Int) : Int × Int × Int :=
  if z1 = 0 then (x2, y2, z2)
  else if z2 = 0 then (x1, y1, z1)
  else
    let P := c.P
    let z1z1 := z1 * z1 % P
    let z2z2 := z2 * z2 % P
    let u1 := x1 * z2z2 % P
    let u2 := x2 * z1z1 % P
    let h := (u2 - u1) % P
    let i := (2 * h) * (2 * h)
    let j := h * i
    let s1 := y1 * z2 * z2z2 % P
    let s2 := y2 * z1 * z1z1 % P
    let r := (s2 - s1) % P
    if h = 0 && r = 0 then doubleJacobian c x1 y1 z1
    else
      let r := 2 * r
      let v := u1 * i
      let x3 := (r * r - j - v - v) % P
      let y3 := (r * (v - x3) - 2 * s1 * j) % P
      let z3 := ((z1 + z2) * (z1 + z2) - z1z1 - z2z2) * h % P
      (x3, y3, z3)

/-- Models `Curve.Add` on affine points (the on-curve panic guard is a
side condition of the theorems, not of the value). -/
def Add (c : Curve) (x1 y1 x2 y2 : Int) : Int × Int :=
  let z1 := zForAffine x1 y1
  let z2 := zForAffine x2 y2
  let r := addJacobian c x1 y1 z1 x2 y2 z2
  affineFromJacobian c r.1 r.2.1 r.2.2

/-- Models `Curve.Double` on affine points. -/
def Double (c : Curve) (x1 y1 : Int) : Int × Int :=
  let z1 := zForAffine x1 y1
  let r := doubleJacobian c x1 y1 z1
  affineFromJacobian c r.1 r.2.1 r.2.2

/-- Models `Curve.Neg`: `(x, -y mod P)`. -/
def Neg (c : Curve) (x y : Int) : Int × Int := (x, (-y) % c.P)

/-- Double-and-add worker of `ScalarMult` over a most-significant-first
bit list (all bits of the scalar's bytes; `Bz = 1` unconditionally, so
the routine treats the base as a finite point). -/
def scalarLoop (c : Curve) (Bx By : Int) : List Bool → Int × Int × Int → Int × Int × Int
  | [], acc => acc
  | bit :: bits, (x, y, z) =>
    let d := doubleJacobian c x y z
    let a := if bit then addJacobian c Bx By 1 d.1 d.2.1 d.2.2 else d
    scalarLoop c Bx By bits a

/-- All bits of the big-endian bytes of `k`, most significant first. -/
def byteBits (b : Nat) : List Bool :=
  [b/128 % 2 = 1, b/64 % 2 = 1, b/32 % 2 = 1, b/16 % 2 = 1,
   b/8 % 2 = 1, b/4 % 2 = 1, b/2 % 2 = 1, b % 2 = 1]

/-- Models `Curve.ScalarMult`: double-and-add over the bytes of `k`. -/
def ScalarMult (c : Curve) (Bx By k : Int) : Int × Int :=
  let bits := (natBytes k.toNat).flatMap byteBits
  let r := scalarLoop c Bx By bits (0, 0, 0)
  affineFromJacobian c r.1 r.2.1 r.2.2

/-- Models `Curve.ScalarBaseMult`. -/
def ScalarBaseMult (c : Curve) (k : Int) : Int × Int :=
  ScalarMult c c.Gx c.Gy k

/-! ### ECDLP solvers (dlp.go) -/

/-- Baby-step table build: insert `j*P` for `j = 1..m`, newest first (a
Go map keyed by the injective `Marshal` encoding; on the inputs used
below every coordinate fits the curve's byte width, so the point pair
itself is a faithful key). -/
def shankBaby (c : Curve) (px py : Int) : Nat → Int → Int × Int →
    List ((Int × Int) × Int) → List ((Int × Int) × Int)
  | 0, _, _, table => table
  | fuel+1, a, (rx, ry), table =>
    let r := Add c rx ry px py
    shankBaby c px py fuel (a + 1) r ((r, a) :: table)

/-- Giant-step walk of `Shank`. -/
def shankGiant (c : Curve) (sx sy sqrtN : Int)
    (table : List ((Int × Int) × Int)) :
    Nat → Int → Int × Int → Option Int
  | 0, _, _ => none
  | fuel+1, b, (rx, ry) =>
    match table.lookup (rx, ry) with
    | some a => some (a + sqrtN * b)
    | none =>
      let r := Add c rx ry sx sy
      shankGiant c sx sy sqrtN table fuel (b + 1) r

/-- Models `Curve.Shank`: baby-step giant-step with `m = ⌊√N⌋ + 1`,
baby steps `j = 1..m`, giant steps `H - i·m·P` for `i = 0..m`. -/
def Shank (c : Curve) (px py hx hy : Int) : Option Int :=
  if ¬ IsOnCurve c px py then none
  else
    let sqrtN := intSqrt c.N.toNat + 1
    let table := shankBaby c px py sqrtN 1 (0, 0) []
    let np := Neg c px py
    let s := ScalarMult c np.1 np.2 (sqrtN : Int)
    shankGiant c s.1 s.2 (sqrtN : Int) table (sqrtN + 1) 0 (hx, hy)

/-- The partition step `f` of Pollard's rho for the ECDLP: branch on
`x mod 3`, updating `(X, a, b)` with `X = aP + bQ`. -/
def rhoF (c : Curve) (px py hx hy : Int) :
    Int × Int × Int × Int → Int × Int × Int × Int
  | (x, y, a, b) =>
    match (x % 3).toNat with
    | 0 =>
      let r := Add c px py x y
      (r.1, r.2, (a + 1) % c.N, b)
    | 1 =>
      let r := ScalarMult c x y 2
      (r.1, r.2, (a + a) % c.N, (b + b) % c.N)
    | _ =>
      let r := Add c hx hy x y
      (r.1, r.2, a, (b + 1) % c.N)

/-- One random start `X = aP + bQ` of Pollard's rho. -/
def rhoSetup (c : Curve) (px py hx hy a b : Int) : Int × Int × Int × Int :=
  let v := ScalarMult c px py a
  let u := ScalarMult c hx hy b
  let x := Add c v.1 v.2 u.1 u.2
  (x.1, x.2, a, b)

/-- The inner tortoise-and-hare loop of `PollardRho` (up to 1000 steps in
Go).  On a collision with `b1 ≠ b2` the candidate
`k = (a1-a2)·(b2-b1)⁻¹ mod N` is checked by a scalar multiplication and
returned only if it reproduces `H`; `none` means this round gave up. -/
def rhoInner (c : Curve) (px py hx hy : Int) :
    Nat → Int × Int × Int × Int → Int × Int × Int × Int → Option Int
  | 0, _, _ => none
  | fuel+1, w1, w2 =>
    let w1 := rhoF c px py hx hy w1
    let w2 := rhoF c px py hx hy (rhoF c px py hx hy w2)
    if w1.1 = w2.1 ∧ w1.2.1 = w2.2.1 then
      if w1.2.2.2 = w2.2.2.2 then none
      else
        let a1 := (w1.2.2.1 - w2.2.2.1) % c.N
        let d := (w2.2.2.2 - w1.2.2.2) % c.N
        let b2 := if Int.gcd d c.N = 1 then intModInverse d c.N else d
        let k := a1 * b2 % c.N
        let t := ScalarMult c px py k
        if t.1 = hx ∧ t.2 = hy then some k else none
    else rhoInner c px py hx hy fuel w1 w2

/-- Outer restart loop of `PollardRho` over a stream of random starting
coefficients (Go draws them from a time-seeded PRNG; the stream is the
embedding of that source, its length standing in for the 100000-round
cap). -/
def rhoRounds (c : Curve) (px py hx hy : Int) :
    List ((Int × Int) × Int × Int) → Option Int
  | [] => none
  | ((a1, b1), (a2, b2)) :: rest =>
    let w1 := rhoSetup c px py hx hy a1 b1
    let w2 := rhoSetup c px py hx hy a2 b2
    match rhoInner c px py hx hy 1000 w1 w2 with
    | some k => some k
    | none => rhoRounds c px py hx hy rest

/-- Models `Curve.PollardRho`, parameterised by the random stream. -/
def PollardRho (c : Curve) (px py hx hy : Int)
    (rnds : List ((Int × Int) × Int × Int)) : Option Int :=
  if ¬ IsOnCurve c px py then none
  else rhoRounds c px py hx hy rnds

/-! ### Integer factorization and Pohlig–Hellman (dlp.go) -/

/-- Inner cycle of the integer Pollard rho: advance `x ← x²+1 mod n`
until the gcd with the tortoise's gap exceeds 1 or the cycle budget
runs out; returns the updated `(x, factor)`. -/
def rhoFacCycle (n xStatic : Int) : Nat → Int → Int → Int × Int
  | 0, x, factor => (x, factor)
  | fuel+1, x, factor =>
    if 1 < factor then (x, factor)
    else
      let x := (x * x + 1) % n
      rhoFacCycle n xStatic fuel x (Int.gcd (x - xStatic) n)

/-- Outer doubling loop of the integer Pollard rho, capped at `i = 20`
outer rounds (Go returns nil then). -/
def rhoFacOuter (n : Int) : Nat → Nat → Int → Int → Int → Option Int
  | 0, _, _, _, factor => if factor ≠ 1 then some factor else none
  | fuel+1, cycleSize, xStatic, x, factor =>
    if factor ≠ 1 then some factor
    else
      let r := rhoFacCycle n xStatic cycleSize x factor
      rhoFacOuter n fuel (cycleSize * 2) r.1 r.1 r.2

/-- Models the integer `pollardRho` of dlp.go: `x²+1` iteration with
Brent-style cycle doubling, 20-round cap (rounds `i = 1..19` run). -/
def pollardRhoInt (n : Int) : Option Int :=
  rhoFacOuter n 19 2 2 2 1

/-- Factor-collection loop of `factorize`: repeatedly split off a rho
factor until the cofactor is prime or rho fails. -/
def factorizeLoop (fuel : Nat) (nn : Int) (acc : List Int) : List Int :=
  match fuel with
  | 0 => acc
  | fuel+1 =>
    match pollardRhoInt nn with
    | none => acc
    | some f =>
      if f = nn then acc
      else
        let acc := acc ++ [f]
        let nn := nn / f
        if isPrime nn.toNat then acc ++ [nn]
        else factorizeLoop fuel nn acc

/-- Strip factors of two first (Go's `Bit(0)` loop). -/
def stripTwos : Nat → Int → List Int × Int
  | 0, nn => ([], nn)
  | fuel+1, nn =>
    if nn % 2 = 0 then
      let r := stripTwos fuel (nn / 2)
      (2 :: r.1, r.2)
    else ([], nn)

/-- Models `factorize` (dlp.go): twos, then rho factors until the
remaining cofactor is prime; on a rho failure the factors found so far
are returned (possibly not multiplying back to `n`). -/
def factorize (n : Int) : List Int :=
  let s := stripTwos n.toNat n
  let nn := s.2
  if nn = 1 then s.1
  else if isPrime nn.toNat then s.1 ++ [nn]
  else s.1 ++ factorizeLoop n.toNat nn []

/-- Single pass grouping a sorted run: multiply equal factors into `k`,
emit `k` on a change (worker for `groupFactors`). -/
def groupFactorsAux : List Int → Int → Int → List Int
  | [], _, k => [k]
  | f' :: rest, f, k =>
    if f' = f then groupFactorsAux rest f (k * f)
    else k :: groupFactorsAux rest f' f'

/-- Group equal factors into prime powers, exactly as the index scan in
`PohligHellman` does on the sorted factor list. -/
def groupFactors : List Int → List Int
  | [] => []
  | f :: rest => groupFactorsAux rest f f

/-- Accumulator loop of `crt`. -/
def crtGo (p : Int) : List Int → List Int → Int → Option Int
  | [], _, x => some (x % p)
  | n1 :: ns, a1 :: as', x =>
    let q := p / n1
    let e := egcd (n1.toNat + 1) n1 q
    if e.1 ≠ 1 then none
    else crtGo p ns as' (x + a1 * (e.2.2 * q))
  | _ :: _, [], _ => none

/-- Models `crt` (the in-src twin of the exported `CRT` used by
`Schoof`): `x = Σ aᵢ·sᵢ·qᵢ mod ∏nᵢ` with `sᵢ` the Bezout cofactor of
`qᵢ = ∏n/nᵢ` in `gcd(nᵢ, qᵢ) = sᵢ'·nᵢ + sᵢ·qᵢ`; `none` if some pair of
moduli is not coprime. -/
def crt (a n : List Int) : Option Int :=
  crtGo (n.foldl (· * ·) 1) n a 0

/-- Stable insertion of `x` into a sorted list (worker for the model of
`sort.SliceStable`). -/
def insertSorted (x : Int) : List Int → List Int
  | [] => [x]
  | y :: ys => if y ≤ x then y :: insertSorted x ys else x :: y :: ys

/-- Stable ascending sort, models the `sort.SliceStable` call in
`PohligHellman`. -/
def sortInts : List Int → List Int
  | [] => []
  | x :: xs => insertSorted x (sortInts xs)

/-- Sub-DLP loop of `PohligHellman`: for each prime power `factor` the
curve's `N` field is overwritten with `factor` (the Go code mutates
`c.N` in place), the sub-problem `(tP, tH)` is solved by `Shank`
(`BitSize ≤ 100` on every curve considered here), and on a `nil`
sub-result the routine returns immediately — leaving `N` overwritten.
The running `N` value is threaded explicitly and returned. -/
def phLoop (c : Curve) (px py hx hy N : Int) :
    List Int → (Option (List Int)) × Int
  | [] => (some [], N)
  | factor :: rest =>
    let cN := { c with N := factor }
    let t := N / factor
    let x := ScalarMult c px py t
    let q := ScalarMult c hx hy t
    match Shank cN x.1 x.2 q.1 q.2 with
    | none => (none, factor)
    | some k =>
      match phLoop c px py hx hy N rest with
      | (some ks, n') => (some (k :: ks), n')
      | (none, n') => (none, n')

/-- Models `Curve.PohligHellman`, returning the discrete log (or `none`)
together with the value held by the curve's `N` field when the call
returns.  On the success path Go restores `N` with `c.N.Set(N)`; on the
early `return nil` path it does not. -/
def PohligHellman (c : Curve) (px py hx hy : Int) : Option Int × Int :=
  if ¬ IsOnCurve c px py then (none, c.N)
  else
    let N := c.N
    let res := groupFactors (sortInts (factorize N))
    match phLoop c px py hx hy N res with
    | (none, n') => (none, n')
    | (some dLogs, _) =>
      match crt dLogs res with
      | some k => (some k, N)
      | none => (none, N)

/-! ### Endomorphism ring and Schoof (schoof.go, schoof_test.go `DivPoly`)

Elements of `Endo(E[ℓ])` are pairs `(a(x), b(x)·y)` with both polynomials
reduced in `𝔽_q[x]/(h(x))`.  The Go `*Endo` value `nil` (the identity) is
`Option.none`; an `ErrZeroDivision` carries the published
`DivPolyFactor`, so the error type is `Except Poly`. -/

/-- An element of `Endo(E[ℓ])`: the pair `(a, b)` of `x`- and
`y`-polynomials (the `Qring` it lives in is passed alongside). -/
abbrev Endo := Poly × Poly

/-- Models `Qring.poly`: reduce mod `h` with coefficients mod `q`. -/
def qpoly (h : Poly) (q : Int) (p : Poly) : Poly := (Poly.Div p h q).2

/-- Models `NewEnd`: both components reduced into the quotient ring. -/
def NewEnd (h : Poly) (q : Int) (x y : Poly) : Endo :=
  (qpoly h q x, qpoly h q y)

/-- Models `Double`: slope `(3a² + A) / (2bf)`; a failed inversion
publishes the denominator as the division-polynomial factor. -/
def EndoDouble (h : Poly) (q A : Int) (f : Poly) :
    Option Endo → Except Poly (Option Endo)
  | none => .ok none
  | some (a1, b1) =>
    let m0 := MulInt (qpoly h q (Poly.Mul a1 a1 q)) 3 q
    let m1 := match m0 with
      | [] => []
      | c :: rest => ((c + A) % q) :: rest
    let de := MulInt (qpoly h q (Poly.Mul b1 f q)) 2 q
    match ModInverse de h q with
    | none => .error de
    | some inv =>
      let m := qpoly h q (Poly.Mul m1 inv q)
      let a3 := Poly.Sub (qpoly h q (Poly.Mul f (Poly.Mul m m q) q)) (MulInt a1 2 q) q
      let b3 := Poly.Sub (qpoly h q (Poly.Mul m (Poly.Sub a1 a3 q) q)) b1 q
      .ok (some (NewEnd h q a3 b3))

/-- Models `Add` on endomorphisms: `nil` shortcuts, fallthrough to
doubling on equal points, `nil` result on opposite points, otherwise the
chord slope `(b2-b1)/(a2-a1)`; a failed inversion publishes the
denominator. -/
def EndoAdd (h : Poly) (q A : Int) (f : Poly) :
    Option Endo → Option Endo → Except Poly (Option Endo)
  | none, qe => .ok qe
  | some pe, none => .ok (some pe)
  | some (a1, b1), some (a2, b2) =>
    if a1 = a2 then
      if b1 = b2 then EndoDouble h q A f (some (a1, b1))
      else .ok none
    else
      let b := Poly.Sub b2 b1 q
      let a := Poly.Sub a2 a1 q
      match ModInverse a h q with
      | none => .error a
      | some inv =>
        let m := qpoly h q (Poly.Mul b inv q)
        let m2 := qpoly h q (Poly.Mul m m q)
        let a3 := Poly.Sub (qpoly h q (Poly.Mul f m2 q)) (Poly.Add a1 a2 q) q
        let b3 := Poly.Sub (qpoly h q (Poly.Mul m (Poly.Sub a1 a3 q) q)) b1 q
        .ok (some (NewEnd h q a3 b3))

/-- Models `Neg` on endomorphisms. -/
def EndoNeg (h : Poly) (q : Int) : Option Endo → Option Endo
  | none => none
  | some (x, y) => some (NewEnd h q x (Poly.Neg y))

/-- Bit loop of `ScalarMul` (bits strictly below the most significant
set bit, so the accumulator starts at `P` itself). -/
def scalarMulBits (h : Poly) (q A : Int) (f : Poly) (pe : Endo) :
    List Bool → Option Endo → Except Poly (Option Endo)
  | [], re => .ok re
  | bit :: bits, re => do
    let re ← EndoDouble h q A f re
    let re ← if bit then EndoAdd h q A f re (some pe) else pure re
    scalarMulBits h q A f pe bits re

/-- Models `ScalarMul`: double-and-add over the bits of `n` below its
top set bit, starting from a re-reduced copy of `P` (so `n = 0` yields
`P`, as in Go). -/
def ScalarMul (h : Poly) (q : Int) (pe : Endo) (n A : Int) (f : Poly) :
    Except Poly (Option Endo) :=
  let re : Endo := NewEnd h q pe.1 pe.2
  scalarMulBits h q A f pe (bitsBelowMSB n.toNat) (some re)

/-- Models the package-level `Exp` on a `Qring`: square-and-multiply
with reduction mod `h` after every product. -/
def QExpBits : Nat → Nat → Poly → Poly → Poly → Int → Poly
  | 0, _, r, _, _, _ => r
  | k+1, b, r, p, h, q =>
    let r1 := qpoly h q (Poly.Mul r r q)
    let r2 := if byteBit b then qpoly h q (Poly.Mul r1 p q) else r1
    QExpBits k (b % 128 * 2) r2 p h q

/-- Byte loop of the `Qring` `Exp`. -/
def QExpBytes : List Nat → Poly → Poly → Poly → Int → Poly
  | [], r, _, _, _ => r
  | b :: bs, r, p, h, q => QExpBytes bs (QExpBits 8 b r p h q) p h q

/-- Models `Exp(qr, p, e)`. -/
def QExp (h : Poly) (q : Int) (p : Poly) (e : Int) : Poly :=
  QExpBytes (natBytes e.toNat) [1] p h q

/-- Models `Square`: the Frobenius square
`π² = (x^{q²} mod h, f^{(q²-1)/2} mod h)` (the two exponentiations are
independent; their concurrent join is deterministic). -/
def Square (h : Poly) (q : Int) (_pe : Endo) (f : Poly) : Endo :=
  let q2 := q * q
  NewEnd h q (QExp h q [0, 1] q2) (QExp h q f (q2 / 2))

/-- Models `Irreducible`: `gcd(x^q - x, h) = 1` in the `Qring`. -/
def Irreducible (h : Poly) (q : Int) : Bool :=
  let x : Poly := [0, 1]
  let xq := Poly.Sub (QExp h q x q) x q
  GCD xq h q == [1]

/-! ### Division polynomials (`DivPoly` in schoof_test.go) -/

/-- The curve polynomial `f = x³ + Ax + B` as the unreduced list
`[B, A, 0, 1]` built by `Curve.poly()`. -/
def curvePoly (c : Curve) : Poly := [c.B, c.A, 0, 1]

/-- One step of the division-polynomial recursion: given the memo table
`[ψ₀, …, ψ_{n-1}]` with `n ≥ 5`, produce `ψ_n` exactly as `DivPoly`
does (odd case with the `16f²` division on the side selected by the
parity of `m = n/2`; even case divided by the cached `ψ₂`). -/
def divPolyStep (q : Int) (f : Poly) (table : List Poly) : Poly :=
  let n := table.length
  let m := n / 2
  let get := fun i => (table.getD i [0])
  let p2m := get (m - 2)
  let p1m := get (m - 1)
  let pm := get m
  let pm1 := get (m + 1)
  let pm2 := get (m + 2)
  let p1me2 := Poly.Exp p1m 2 q
  let pme3 := Poly.Exp pm 3 q
  let pm1e2 := Poly.Exp pm1 2 q
  let pm1e3 := Poly.Exp pm1 3 q
  if n % 2 = 1 then
    let denominator := Poly.Mul (Poly.Mul f f q) [16] q
    let t1 := Poly.Mul pm2 pme3 q
    let t2 := Poly.Mul p1m pm1e3 q
    let t1 := if m % 2 = 0 then (Poly.Div t1 denominator q).1 else t1
    let t2 := if m % 2 = 0 then t2 else (Poly.Div t2 denominator q).1
    Poly.Sub t1 t2 q
  else
    let dp := Poly.Mul pm
      (Poly.Sub (Poly.Mul pm2 p1me2 q) (Poly.Mul p2m pm1e2 q) q) q
    (Poly.Div dp (get 2) q).1

/-- Build the memo table `[ψ₀, …]` of length `count`, the base cases
`ψ₀ … ψ₄` taken verbatim from `DivPoly` (with `a, b` the `Int64` values
of `A, B`, exact for the word-sized curves considered). -/
def divPolyTable (c : Curve) : Nat → List Poly
  | 0 => []
  | count+1 =>
    let table := divPolyTable c count
    let q := c.P
    let f := curvePoly c
    let a := c.A
    let b := c.B
    let next :=
      match count with
      | 0 => [0]
      | 1 => [1]
      | 2 => Poly.Mul f [4] q
      | 3 => sanitize [-(a*a), 12*b, 6*a, 0, 3] q
      | 4 => Poly.Mul [-64*b*b - 8*a*a*a, -32*a*b, -40*a*a, 160*b, 40*a, 0, 8] f q
      | _ => divPolyStep q f table
    table ++ [next]

/-- Models `Curve.DivPoly`. -/
def DivPoly (c : Curve) (n : Nat) : Poly := (divPolyTable c (n+1)).getD n [0]

/-! ### The trace workers and the Schoof driver -/

/-- What one pass of the body of the odd-`ℓ` worker loop produces:
a posted trace, an `ErrZeroDivision` carrying the published
`DivPolyFactor`, or neither (no candidate matched and no error — Go then
re-runs the body unchanged). -/
inductive BodyOut where
  | post : Int → BodyOut
  | zeroDiv : Poly → BodyOut
  | stuck : BodyOut
deriving DecidableEq, Repr

/-- The candidate scan `t = 2 … ℓ-2`, maintaining `P ← P + π`. -/
def traceSearch (h : Poly) (q A : Int) (f : Poly) (pi S : Endo) :
    Nat → Int → Option Endo → BodyOut
  | 0, _, _ => .stuck
  | fuel+1, t, P =>
    match EndoAdd h q A f P (some pi) with
    | .error fac => .zeroDiv fac
    | .ok P' =>
      if P' = some S then .post t
      else traceSearch h q A f pi S fuel (t+1) P'

/-- One pass of the odd-`ℓ` worker body: build `π`, `π²`,
`Q = (q mod ℓ)·ι`, `S = π² + Q`, test `S` against `∞, π, -π`, then scan
the remaining candidates. -/
def traceBody (c : Curve) (ell : Int) (h : Poly) : BodyOut :=
  let q := c.P
  let A := c.A
  let f := curvePoly c
  let xq := QExp h q [0, 1] q
  let yq := QExp h q f (q / 2)
  let pi := NewEnd h q xq yq
  let pi2 := Square h q pi f
  let idE := NewEnd h q [0, 1] [1]
  match ScalarMul h q idE (q % ell) A f with
  | .error fac => .zeroDiv fac
  | .ok Q =>
    match EndoAdd h q A f (some pi2) Q with
    | .error fac => .zeroDiv fac
    | .ok none => .post 0
    | .ok (some S) =>
      if S = pi then .post 1
      else if EndoNeg h q (some S) = some pi then .post (-1)
      else
        let P := NewEnd h q pi.1 pi.2
        traceSearch h q A f pi S (ell - 3).toNat 2 (some P)

/-- The retry loop of the odd-`ℓ` worker: on `ErrZeroDivision` replace
`h ← gcd(h, DivPolyFactor)` and re-run; on no result re-run unchanged.
The `ErrNoCharacterPoly` arm of the Go `switch` would post that error,
but no branch of the body ever produces it, so the loop can only post a
trace or run forever (fuel exhaustion, `none`). -/
def traceLoop (c : Curve) (ell : Int) : Nat → Poly → Option Int
  | 0, _ => none
  | fuel+1, h =>
    match traceBody c ell h with
    | .post t => some t
    | .zeroDiv fac => traceLoop c ell fuel (GCD h fac c.P)
    | .stuck => traceLoop c ell fuel h

/-- Models `TraceMod`: the `ℓ = 2` worker decides by irreducibility of
`f`; an odd-`ℓ` worker starts from `h = ψ_ℓ` made monic and runs the
retry loop (with the given fuel standing for the unbounded Go loop). -/
def TraceMod (c : Curve) (ell : Int) (fuel : Nat) : Option Int :=
  let q := c.P
  let h := Monic (DivPoly c ell.toNat) q
  if ell = 2 then
    if Irreducible (curvePoly c) q then some 1 else some 0
  else traceLoop c ell fuel h

/-- Prime enumeration of the driver: collect `ℓ = 2, 3, 5, …` while the
running product `M` satisfies `M ≤ 4·⌊√q⌋`. -/
def schoofPrimes : Nat → Int → Int → Int → List Int × Int
  | 0, _, _, M => ([], M)
  | fuel+1, fsq, l, M =>
    if M ≤ fsq then
      let r := schoofPrimes fuel fsq (NextPrime l.toNat : Int) (M * l)
      (l :: r.1, r.2)
    else ([], M)

/-- Run the workers in spawn order and collect their traces (the model
of the fan-in; the spec fixes this pairing of `t_ℓ` with `ℓ` by
position). -/
def runWorkers (c : Curve) (fuel : Nat) : List Int → Option (List Int)
  | [] => some []
  | ell :: rest =>
    match TraceMod { P := c.P, A := c.A, B := c.B } ell fuel with
    | none => none
    | some t =>
      match runWorkers c fuel rest with
      | none => none
      | some ts => some (t :: ts)

/-- Models `Curve.Schoof`: enumerate primes, run one trace worker per
prime, CRT the traces, shift into the signed range, and return
`q + 1 - t`.  `none` stands for a worker error or fuel exhaustion. -/
def Schoof (c : Curve) (fuel : Nat) : Option Int :=
  let q := c.P
  let fsq := (intSqrt q.toNat : Int) * 4
  let pm := schoofPrimes 64 fsq 2 1
  let ell := pm.1
  let M := pm.2
  match runWorkers c fuel ell with
  | none => none
  | some tr =>
    match crt tr ell with
    | none => none
    | some t =>
      let t := if M / 2 ≤ t then t - M else t
      some (q + 1 - t)

/-! ### The fixture curves used by concrete evaluations -/

/-- The ECDLP test curve of dlp_test.go: `y² = x³ + 1001·x + 75` over
`𝔽₇₉₁₉`, subgroup of order `N = 7889` generated by `G = (4023, 6036)`. -/
def dlpCurve : Curve :=
  { P := 7919, A := 1001, B := 75, Gx := 4023, Gy := 6036, N := 7889,
    BitSize := 13 }

/-- A toy curve: `y² = x³ + 4·x + 20` over `𝔽₂₉`, group order `N = 37`,
generator `G = (1, 5)`. -/
def toyCurve : Curve :=
  { P := 29, A := 4, B := 20, Gx := 1, Gy := 5, N := 37 }

/-! ### Basic lemmas: trimming, coefficients, reduced and trimmed lists -/

/-- Every list is its `dzk` image with some leading zeros restored. -/
theorem dzk_spec (l : Poly) : ∃ n, l = List.replicate n 0 ++ dzk l := by
  induction l with
  | nil => exact ⟨0, rfl⟩
  | cons a rest ih =>
    cases rest with
    | nil => exact ⟨0, rfl⟩
    | cons b t =>
      by_cases ha : a = 0
      · obtain ⟨n, hn⟩ := ih
        refine ⟨n + 1, ?_⟩
        simp only [dzk, if_pos ha, ha]
        calc (0 : Int) :: b :: t = 0 :: (List.replicate n 0 ++ dzk (b :: t)) := by
              rw [← hn]
          _ = List.replicate (n+1) 0 ++ dzk (b :: t) := by
              simp [List.replicate_succ]
      · exact ⟨0, by simp [dzk, ha]⟩

/-- Trimming only discards high zero coefficients. -/
theorem trim_spec (p : Poly) : ∃ n, p = trim p ++ List.replicate n 0 := by
  obtain ⟨n, hn⟩ := dzk_spec p.reverse
  refine ⟨n, ?_⟩
  have := congrArg List.reverse hn
  simpa [trim] using this

/-- `coeff` ignores padding zeros on the high end. -/
theorem coeff_append_replicate (l : Poly) (n : Nat) (i : Nat) :
    coeff (l ++ List.replicate n 0) i = coeff l i := by
  unfold coeff
  rw [List.getD_eq_getElem?_getD, List.getD_eq_getElem?_getD,
    List.getElem?_append, List.getElem?_replicate]
  rcases lt_or_ge i l.length with h | h
  · rw [if_pos h]
  · rw [if_neg (by omega), List.getElem?_eq_none h]
    by_cases h2 : i - l.length < n <;> simp [h2]

/-- Coefficients are unchanged by `trim`. -/
theorem coeff_trim (p : Poly) (i : Nat) : coeff (trim p) i = coeff p i := by
  obtain ⟨n, hn⟩ := trim_spec p
  conv_rhs => rw [hn]
  rw [coeff_append_replicate]

/-- `dzk` of a nonempty list is nonempty. -/
theorem dzk_ne_nil : ∀ {l : Poly}, l ≠ [] → dzk l ≠ []
  | [], h => absurd rfl h
  | [a], _ => by simp [dzk]
  | a :: b :: t, _ => by
    by_cases ha : a = 0
    · simpa [dzk, ha] using dzk_ne_nil (l := b :: t) (by simp)
    · simp [dzk, ha]

/-- `trim` of a nonempty list is nonempty. -/
theorem trim_ne_nil {p : Poly} (h : p ≠ []) : trim p ≠ [] := by
  have hrev : p.reverse ≠ [] := by simpa using h
  have := dzk_ne_nil hrev
  simpa [trim] using this

/-- All entries of a list are in `[0, m)`. -/
def Red (m : Int) (p : Poly) : Prop := ∀ a ∈ p, 0 ≤ a ∧ a < m

/-- Nonempty with a nonzero top coefficient unless a singleton. -/
def Trimmed (p : Poly) : Prop :=
  p ≠ [] ∧ (1 < p.length → coeff p (p.length - 1) ≠ 0)

/-- The head surviving `dzk` is nonzero unless it is the kept constant. -/
theorem dzk_head_ne_zero :
    ∀ {l : Poly} {a : Int} {rest : Poly},
      dzk l = a :: rest → rest ≠ [] → a ≠ 0
  | [], _, _, h, _ => by simp [dzk] at h
  | [x], _, _, h, hrest => by
    rw [dzk] at h
    injection h with _ h2
    exact absurd h2.symm hrest
  | x :: y :: t, a, rest, h, hrest => by
    by_cases hx : x = 0
    · have h' : dzk (y :: t) = a :: rest := by simpa [dzk, hx] using h
      exact dzk_head_ne_zero h' hrest
    · have h' : x :: y :: t = a :: rest := by simpa [dzk, hx] using h
      injection h' with h1 _
      rw [← h1]
      exact hx

/-- The top coefficient of a reversed cons is its head. -/
theorem coeff_reverse_head (a : Int) (rest : Poly) :
    coeff (rest ++ [a]) rest.length = a := by
  unfold coeff
  rw [List.getD_eq_getElem?_getD, List.getElem?_append, if_neg (by omega)]
  simp

/-- `trim` establishes the trim invariant. -/
theorem trimmed_trim {p : Poly} (h : p ≠ []) : Trimmed (trim p) := by
  refine ⟨trim_ne_nil h, fun hlen => ?_⟩
  have hrev : p.reverse ≠ [] := by simpa using h
  rcases hd : dzk p.reverse with _ | ⟨a, rest⟩
  · exact absurd hd (dzk_ne_nil hrev)
  · have htp : trim p = rest.reverse ++ [a] := by
      rw [trim, hd]; simp
    have hlen2 : (trim p).length = rest.length + 1 := by
      rw [htp]; simp
    have hrest : rest ≠ [] := by
      intro hr
      subst hr
      simp at hlen2
      omega
    have ha := dzk_head_ne_zero hd hrest
    have hidx : (trim p).length - 1 = rest.reverse.length := by
      rw [hlen2]; simp
    rw [htp] at hidx ⊢
    rw [hidx, coeff_reverse_head]
    exact ha

/-! ### Reducedness of the ring operations -/

theorem red_map_emod {m : Int} (hm : 0 < m) (p : Poly) :
    Red m (p.map (· % m)) := by
  intro a ha
  obtain ⟨b, _, rfl⟩ := List.mem_map.1 ha
  exact ⟨Int.emod_nonneg b (by omega), Int.emod_lt_of_pos b hm⟩

theorem red_trim {m : Int} {p : Poly} (h : Red m p) : Red m (trim p) := by
  intro a ha
  obtain ⟨n, hn⟩ := trim_spec p
  exact h a (hn ▸ List.mem_append_left _ ha)

theorem red_sanitize {m : Int} (hm : 0 < m) (p : Poly) :
    Red m (sanitize p m) := red_trim (red_map_emod hm p)

theorem red_subCore {m : Int} (hm : 0 < m) :
    ∀ (p q : Poly), Red m (subCore p q m)
  | [], [] => by intro a ha; simp [subCore] at ha
  | [], b :: q => by
    intro a ha
    simp only [subCore] at ha
    obtain ⟨c, _, rfl⟩ := List.mem_map.1 ha
    exact ⟨Int.emod_nonneg _ (by omega), Int.emod_lt_of_pos _ hm⟩
  | a :: p, [] => red_map_emod hm (a :: p)
  | a :: p, b :: q => by
    intro c hc
    rcases List.mem_cons.1 hc with h | h
    · subst h
      exact ⟨Int.emod_nonneg _ (by omega), Int.emod_lt_of_pos _ hm⟩
    · exact red_subCore hm p q c h

theorem red_Sub {m : Int} (hm : 0 < m) (p q : Poly) :
    Red m (Poly.Sub p q m) := red_trim (red_subCore hm p q)

theorem red_Mul {m : Int} (hm : 0 < m) (p q : Poly) :
    Red m (Poly.Mul p q m) := red_sanitize hm _

theorem red_addCore {m : Int} (hm : 0 < m) :
    ∀ {p q : Poly}, Red m p → Red m (addCore p q m)
  | [], q, _ => by intro a ha; cases q <;> simp [addCore] at ha
  | a :: p, [], hp => hp
  | a :: p, b :: q, hp => by
    intro c hc
    rcases List.mem_cons.1 hc with h | h
    · subst h
      exact ⟨Int.emod_nonneg _ (by omega), Int.emod_lt_of_pos _ hm⟩
    · exact red_addCore hm (fun x hx => hp x (List.mem_cons_of_mem a hx)) c h

theorem red_Add {m : Int} (hm : 0 < m) {p q : Poly}
    (hp : Red m p) (hq : Red m q) : Red m (Poly.Add p q m) := by
  unfold Poly.Add
  by_cases h : Cmp p q < 0 <;> simp only [h, if_true, if_false] <;>
    exact red_trim (red_addCore hm (by assumption))

/-! ### Equality from congruence on reduced trimmed lists -/

/-- Two reduced, trimmed coefficient lists that agree coefficientwise mod
`m` are equal. -/
theorem eq_of_red_trimmed_congr {m : Int} {p q : Poly} (hm : 0 < m)
    (hp : Red m p) (hq : Red m q) (tp : Trimmed p) (tq : Trimmed q)
    (h : ∀ i, coeff p i % m = coeff q i % m) : p = q := by
  have hcoeff : ∀ i, coeff p i = coeff q i := by
    intro i
    have hpi : coeff p i % m = coeff p i := by
      rcases lt_or_ge i p.length with hi | hi
      · have := hp (coeff p i) (by
          unfold coeff
          rw [List.getD_eq_getElem?_getD, List.getElem?_eq_getElem hi]
          exact List.getElem_mem _)
        exact Int.emod_eq_of_lt this.1 this.2
      · unfold coeff
        rw [List.getD_eq_getElem?_getD, List.getElem?_eq_none hi]
        simp
    have hqi : coeff q i % m = coeff q i := by
      rcases lt_or_ge i q.length with hi | hi
      · have := hq (coeff q i) (by
          unfold coeff
          rw [List.getD_eq_getElem?_getD, List.getElem?_eq_getElem hi]
          exact List.getElem_mem _)
        exact Int.emod_eq_of_lt this.1 this.2
      · unfold coeff
        rw [List.getD_eq_getElem?_getD, List.getElem?_eq_none hi]
        simp
    rw [← hpi, ← hqi, h i]
  have hlen : p.length = q.length := by
    by_contra hne
    rcases Nat.lt_or_ge p.length q.length with hlt | hge
    · have htop : coeff p (q.length - 1) = 0 := by
        unfold coeff
        rw [List.getD_eq_getElem?_getD, List.getElem?_eq_none (by omega)]
        simp
      have := hcoeff (q.length - 1)
      rw [htop] at this
      rcases Nat.lt_or_ge 1 q.length with h1 | h1
      · exact tq.2 h1 this.symm
      · have hq1 : q.length = 1 := by
          have := List.length_pos.2 tq.1
          omega
        have : p.length = 0 := by omega
        exact tp.1 (List.length_eq_zero.1 this)
    · rcases Nat.lt_or_ge q.length p.length with hlt | hge2
      · have htop : coeff q (p.length - 1) = 0 := by
          unfold coeff
          rw [List.getD_eq_getElem?_getD, List.getElem?_eq_none (by omega)]
          simp
        have := hcoeff (p.length - 1)
        rw [htop] at this
        rcases Nat.lt_or_ge 1 p.length with h1 | h1
        · exact tp.2 h1 this
        · have hp1 : p.length = 1 := by
            have := List.length_pos.2 tp.1
            omega
          have : q.length = 0 := by omega
          exact tq.1 (List.length_eq_zero.1 this)
      · omega
  apply List.ext_getElem hlen
  intro i h1 h2
  have := hcoeff i
  unfold coeff at this
  rwa [List.getD_eq_getElem?_getD, List.getD_eq_getElem?_getD,
    List.getElem?_eq_getElem h1, List.getElem?_eq_getElem h2] at this

/-! ### Coefficient laws of the ring operations -/

theorem coeff_nil (i : Nat) : coeff [] i = 0 := by
  unfold coeff
  simp

theorem coeff_cons_succ (a : Int) (p : Poly) (i : Nat) :
    coeff (a :: p) (i+1) = coeff p i := by
  unfold coeff
  simp

theorem coeff_cons_zero (a : Int) (p : Poly) : coeff (a :: p) 0 = a := rfl

theorem coeff_map_emod (m : Int) :
    ∀ (p : Poly) (i : Nat), coeff (p.map (· % m)) i = coeff p i % m
  | [], i => by simp [coeff_nil, Int.zero_emod]
  | a :: p, 0 => rfl
  | a :: p, i+1 => by
    simp only [List.map_cons, coeff_cons_succ]
    exact coeff_map_emod m p i

theorem coeff_map_negEmod (m : Int) :
    ∀ (q : Poly) (i : Nat),
      coeff (q.map (fun b => -b % m)) i = (0 - coeff q i) % m
  | [], i => by simp [coeff_nil, Int.zero_emod]
  | b :: q, 0 => by simp [coeff_cons_zero]
  | b :: q, i+1 => by
    simp only [List.map_cons, coeff_cons_succ]
    exact coeff_map_negEmod m q i

theorem coeff_subCore (m : Int) :
    ∀ (p q : Poly) (i : Nat),
      coeff (subCore p q m) i = (coeff p i - coeff q i) % m
  | [], [], i => by simp [subCore, coeff_nil, Int.zero_emod]
  | [], b :: q, i => by
    rw [show subCore [] (b :: q) m = (b :: q).map (fun b => -b % m) from rfl,
      coeff_map_negEmod, coeff_nil]
  | a :: p, [], i => by
    rw [show subCore (a :: p) [] m = (a :: p).map (· % m) from rfl,
      coeff_map_emod, coeff_nil, Int.sub_zero]
  | a :: p, b :: q, 0 => rfl
  | a :: p, b :: q, i+1 => by
    simp only [subCore, coeff_cons_succ]
    exact coeff_subCore m p q i

theorem coeff_Sub (m : Int) (p q : Poly) (i : Nat) :
    coeff (Poly.Sub p q m) i = (coeff p i - coeff q i) % m := by
  rw [Poly.Sub, coeff_trim, coeff_subCore]

theorem coeff_addCore (m : Int) :
    ∀ (p q : Poly) (i : Nat), q.length ≤ p.length →
      coeff (addCore p q m) i % m = (coeff p i + coeff q i) % m
  | p, [], i, _ => by
    cases p <;> simp [addCore, coeff_nil, Int.add_zero, Int.emod_emod_of_dvd]
  | [], b :: q, i, h => by simp at h
  | a :: p, b :: q, 0, _ => by
    simp only [addCore, coeff_cons_zero]
    rw [Int.emod_emod_of_dvd _ dvd_rfl]
  | a :: p, b :: q, i+1, h => by
    simp only [addCore, coeff_cons_succ]
    exact coeff_addCore m p q i (by simpa using h)

/-- `Cmp p q < 0` forces `p` to be at most as long as `q`. -/
theorem length_le_of_cmp_neg {p q : Poly} (h : Cmp p q < 0) :
    p.length ≤ q.length := by
  unfold Cmp at h
  by_cases h1 : q.length < p.length
  · rw [if_pos h1] at h
    omega
  · omega

theorem coeff_Add (m : Int) (p q : Poly) (i : Nat) :
    coeff (Poly.Add p q m) i % m = (coeff p i + coeff q i) % m := by
  unfold Poly.Add
  by_cases h : Cmp p q < 0
  · rw [if_pos h, coeff_trim,
      coeff_addCore m q p i (length_le_of_cmp_neg h), Int.add_comm]
  · rw [if_neg h, coeff_trim, coeff_addCore]
    by_cases h1 : q.length < p.length
    · omega
    · unfold Cmp at h
      rw [if_neg h1] at h
      by_cases h2 : p.length < q.length
      · rw [if_pos h2] at h
        omega
      · omega

theorem coeff_padAdd :
    ∀ (p q : List Int) (i : Nat), coeff (padAdd p q) i = coeff p i + coeff q i
  | p, [], i => by cases p <;> simp [padAdd, coeff_nil]
  | [], b :: q, i => by simp [padAdd, coeff_nil]
  | a :: p, b :: q, 0 => rfl
  | a :: p, b :: q, i+1 => by
    simp only [padAdd, coeff_cons_succ]
    exact coeff_padAdd p q i

theorem coeff_map_mulLeft (a : Int) :
    ∀ (q : Poly) (i : Nat), coeff (q.map (a * ·)) i = a * coeff q i
  | [], i => by simp [coeff_nil]
  | b :: q, 0 => rfl
  | b :: q, i+1 => by
    simp only [List.map_cons, coeff_cons_succ]
    exact coeff_map_mulLeft a q i

/-- The mathematical convolution coefficient `Σ_{j≤i} pⱼ·q_{i-j}`. -/
def convCoeff (p q : Poly) (i : Nat) : Int :=
  ∑ j ∈ Finset.range (i+1), coeff p j * coeff q (i - j)

theorem coeff_conv :
    ∀ (p q : Poly) (i : Nat), coeff (conv p q) i = convCoeff p q i
  | [], q, i => by
    simp [conv, convCoeff, coeff_nil]
  | a :: p, q, 0 => by
    simp only [conv, coeff_padAdd, coeff_map_mulLeft, coeff_cons_zero,
      convCoeff, Finset.sum_range_one]
    rfl
  | a :: p, q, i+1 => by
    simp only [conv, coeff_padAdd, coeff_map_mulLeft, coeff_cons_succ]
    rw [coeff_conv p q i]
    unfold convCoeff
    rw [Finset.sum_range_succ' (fun j => coeff (a :: p) j * coeff q (i + 1 - j)) (i+1)]
    simp only [coeff_cons_succ, coeff_cons_zero, Nat.sub_zero]
    have : ∀ j, i + 1 - (j + 1) = i - j := fun j => by omega
    rw [Int.add_comm]
    congr 1
    exact Finset.sum_congr rfl fun j _ => by rw [this j]

theorem coeff_Mul (m : Int) (p q : Poly) (i : Nat) :
    coeff (Poly.Mul p q m) i = convCoeff p q i % m := by
  rw [Poly.Mul, sanitize, coeff_trim, coeff_map_emod, coeff_conv]

/-! ### The integer extended gcd and modular inverse -/

/-- The Euclidean recurrence for `Int.gcd` on nonnegative arguments. -/
theorem int_gcd_rec {a b : Int} (ha : 0 ≤ a) (hb : 0 < b) :
    Int.gcd a b = Int.gcd b (a % b) := by
  obtain ⟨A, rfl⟩ : ∃ A : Nat, a = (A : Int) := ⟨a.toNat, (Int.toNat_of_nonneg ha).symm⟩
  obtain ⟨B, rfl⟩ : ∃ B : Nat, b = (B : Int) := ⟨b.toNat, (Int.toNat_of_nonneg hb.le).symm⟩
  have hmod : ((A : Int) % (B : Int)) = ((A % B : Nat) : Int) := by
    push_cast
    rfl
  rw [hmod]
  show Nat.gcd A B = Nat.gcd B (A % B)
  rw [Nat.gcd_comm A B, Nat.gcd_rec B A]
  exact Nat.gcd_comm _ _

/-- Bezout identity and gcd value of the fuelled `egcd`. -/
theorem egcd_spec :
    ∀ (fuel : Nat) (a b : Int), 0 ≤ a → 0 ≤ b → b.natAbs < fuel →
      (egcd fuel a b).2.1 * a + (egcd fuel a b).2.2 * b = (egcd fuel a b).1 ∧
      (egcd fuel a b).1 = Int.gcd a b
  | 0, a, b, _, _, hfuel => by omega
  | fuel+1, a, b, ha, hb, hfuel => by
    by_cases hb0 : b = 0
    · subst hb0
      constructor
      · simp [egcd]
      · simp [egcd, Int.gcd_zero_right, Int.natAbs_of_nonneg ha]
    · have hbpos : 0 < b := lt_of_le_of_ne hb (Ne.symm hb0)
      have hmodnn : 0 ≤ a % b := Int.emod_nonneg a hb0
      have hmodlt : a % b < b := Int.emod_lt_of_pos a hbpos
      have habs : (a % b).natAbs < fuel := by
        have h1 : (a % b).natAbs < b.natAbs := by
          omega
        omega
      obtain ⟨ih1, ih2⟩ := egcd_spec fuel b (a % b) hb hmodnn habs
      have hrec : Int.gcd a b = Int.gcd b (a % b) := int_gcd_rec ha hbpos
      simp only [egcd, if_neg hb0]
      set X := (egcd fuel b (a % b)).2.1 with hX
      set Y := (egcd fuel b (a % b)).2.2 with hY
      set G := (egcd fuel b (a % b)).1 with hG
      have hd : a % b = a - b * (a / b) := Int.emod_def a b
      rw [hd] at ih1
      constructor
      · linear_combination ih1
      · rw [ih2, hrec]

/-- `Int.gcd` is unchanged by reducing the first argument mod the
second. -/
theorem int_gcd_emod (a m : Int) : Int.gcd (a % m) m = Int.gcd a m := by
  apply Nat.dvd_antisymm
  · have d1 : ((Int.gcd (a % m) m : Nat) : Int) ∣ a % m := Int.gcd_dvd_left
    have d2 : ((Int.gcd (a % m) m : Nat) : Int) ∣ m := Int.gcd_dvd_right
    have h1 : ((Int.gcd (a % m) m : Nat) : Int) ∣ a := by
      have heq : a % m + m * (a / m) = a := Int.emod_add_ediv a m
      calc ((Int.gcd (a % m) m : Nat) : Int) ∣ a % m + m * (a / m) :=
            dvd_add d1 (d2.mul_right _)
        _ = a := heq
    exact Int.natCast_dvd_natCast.1 (Int.dvd_gcd h1 d2)
  · have d1 : ((Int.gcd a m : Nat) : Int) ∣ a := Int.gcd_dvd_left
    have d2 : ((Int.gcd a m : Nat) : Int) ∣ m := Int.gcd_dvd_right
    have h1 : ((Int.gcd a m : Nat) : Int) ∣ a % m := by
      have heq : a % m = a - m * (a / m) := Int.emod_def a m
      rw [heq]
      exact dvd_sub d1 (d2.mul_right _)
    exact Int.natCast_dvd_natCast.1 (Int.dvd_gcd h1 d2)

/-- When `gcd(a, m) = 1` the modelled `big.Int.ModInverse` really
inverts: `inv · a ≡ 1 (mod m)`. -/
theorem intModInverse_spec {a m : Int} (hm : 1 < m)
    (h : Int.gcd a m = 1) : intModInverse a m * a % m = 1 % m := by
  have hm0 : m ≠ 0 := by omega
  have h' : Int.gcd (a % m) m = 1 := by rw [int_gcd_emod]; exact h
  unfold intModInverse
  rw [if_pos h']
  have hspec := egcd_spec (m.toNat + 1) (a % m) m
    (Int.emod_nonneg a hm0) (by omega) (by omega)
  set x := (egcd (m.toNat + 1) (a % m) m).2.1 with hx
  set y := (egcd (m.toNat + 1) (a % m) m).2.2 with hy
  have hbez : x * (a % m) + y * m = 1 := by
    have := hspec.1
    rw [hspec.2, h'] at this
    simpa using this
  calc x % m * a % m = x % m % m * (a % m) % m := by rw [Int.mul_emod]
    _ = x % m * (a % m % m) % m := by rw [Int.emod_emod_of_dvd _ dvd_rfl,
          Int.emod_emod_of_dvd _ dvd_rfl]
    _ = x * (a % m) % m := by rw [← Int.mul_emod]
    _ = (1 - y * m) % m := by rw [← hbez]; ring_nf
    _ = (1 + m * (-y)) % m := by ring_nf
    _ = 1 % m := by rw [Int.add_mul_emod_self_left]

/-! ### Support lemmas for the curve group-law claims -/

/-- The modelled `ModInverse` lands in `[0, m)` for a positive modulus. -/
theorem intModInverse_bounds {a m : Int} (hm : 0 < m) :
    0 ≤ intModInverse a m ∧ intModInverse a m < m := by
  unfold intModInverse
  by_cases h : Int.gcd (a % m) m = 1
  · rw [if_pos h]
    exact ⟨Int.emod_nonneg _ (by omega), Int.emod_lt_of_pos _ hm⟩
  · rw [if_neg h]
    omega

/-- Inverting `1` gives `1`. -/
theorem intModInverse_one {m : Int} (hm : 1 < m) : intModInverse 1 m = 1 := by
  have h := intModInverse_spec (a := 1) hm (Int.one_gcd)
  rw [Int.mul_one] at h
  have hb := intModInverse_bounds (a := (1:Int)) (by omega : (0:Int) < m)
  rw [Int.emod_eq_of_lt hb.1 hb.2, Int.emod_eq_of_lt (by omega) hm] at h
  exact h

/-- Bounds extracted from a positive `IsOnCurve` test. -/
theorem onCurve_bounds {c : Curve} {x y : Int}
    (h : IsOnCurve c x y = true) :
    0 ≤ x ∧ x < c.P ∧ 0 ≤ y ∧ y < c.P := by
  unfold IsOnCurve at h
  by_cases hg : x < 0 || c.P ≤ x || y < 0 || c.P ≤ y
  · rw [if_pos hg] at h
    cases h
  · simp only [Bool.or_eq_true, decide_eq_true_eq, not_or] at hg
    omega

/-- `affineFromJacobian` at `z = 1` returns in-range coordinates
unchanged. -/
theorem affineFromJacobian_one {c : Curve} {x y : Int} (hp : 1 < c.P)
    (hx : 0 ≤ x) (hx2 : x < c.P) (hy : 0 ≤ y) (hy2 : y < c.P) :
    affineFromJacobian c x y 1 = (x, y) := by
  unfold affineFromJacobian
  rw [if_neg (by omega : ¬ (1:Int) = 0), intModInverse_one hp]
  simp only [Int.mul_one]
  rw [Int.emod_eq_of_lt hx hx2, Int.emod_eq_of_lt hy hy2]

/-- An affine point on the curve is not the `(0,0)` sentinel when
`B ≢ 0 (mod P)`. -/
theorem onCurve_ne_sentinel {c : Curve} {x y : Int} (hp : 1 < c.P)
    (hB : c.B % c.P ≠ 0) (h : IsOnCurve c x y = true) :
    ¬ (x = 0 ∧ y = 0) := by
  rintro ⟨rfl, rfl⟩
  unfold IsOnCurve evaluatePolynomial at h
  rw [if_neg (by simp; omega)] at h
  simp only [Int.mul_zero, Int.zero_mul, Int.zero_add, Int.add_zero,
    Int.zero_emod] at h
  simp only [beq_iff_eq] at h
  exact hB h.symm

/-! ### Claim theorems -/

/-- C5: on every curve with prime modulus and `B ≢ 0 (mod P)` — in
particular every curve of the fixture set — and every affine point
`(x, y)` on it, with `(0,0)` the sentinel for ∞:
`scalarBaseMult(0) = ∞`, `add(∞, P) = P`, `add(P, ∞) = P`,
`double(∞) = ∞`, and `isOnCurve(∞) = false`. -/
theorem C5_infinity_identities (c : Curve) (x y : Int)
    (hp : 1 < c.P) (hB : c.B % c.P ≠ 0) (hxy : IsOnCurve c x y = true) :
    ScalarBaseMult c 0 = (0, 0) ∧
    Add c 0 0 x y = (x, y) ∧
    Add c x y 0 0 = (x, y) ∧
    Double c 0 0 = (0, 0) ∧
    IsOnCurve c 0 0 = false := by
  obtain ⟨hx0, hx1, hy0, hy1⟩ := onCurve_bounds hxy
  have hsent := onCurve_ne_sentinel hp hB hxy
  have hz : zForAffine x y = 1 := by
    unfold zForAffine
    rw [if_neg (by simpa using hsent)]
  refine ⟨?_, ?_, ?_, ?_, ?_⟩
  · unfold ScalarBaseMult ScalarMult
    norm_num [natBytes, natBytesLE, scalarLoop, affineFromJacobian]
  · unfold Add
    simp only [hz]
    have hzs : zForAffine 0 0 = 0 := by unfold zForAffine; simp
    rw [hzs]
    unfold addJacobian
    rw [if_pos rfl]
    exact affineFromJacobian_one hp hx0 hx1 hy0 hy1
  · unfold Add
    simp only [hz]
    have hzs : zForAffine 0 0 = 0 := by unfold zForAffine; simp
    rw [hzs]
    unfold addJacobian
    rw [if_neg (by omega : ¬ (1:Int) = 0), if_pos rfl]
    exact affineFromJacobian_one hp hx0 hx1 hy0 hy1
  · unfold Double
    have hzs : zForAffine 0 0 = 0 := by unfold zForAffine; simp
    rw [hzs]
    unfold doubleJacobian affineFromJacobian
    norm_num
  · unfold IsOnCurve evaluatePolynomial
    rw [if_neg (by simp; omega)]
    simp only [Int.mul_zero, Int.zero_mul, Int.zero_add, Int.add_zero,
      Int.zero_emod]
    simp only [beq_eq_false_iff_ne, ne_eq]
    exact fun h => hB h.symm

/-- Witness for C5 on the TOY fixture (p = 29, A = 4, B = 20) at its
base point (1, 5). -/
theorem C5_infinity_identities_witness :
    let toy : Curve :=
      { P := 29, A := 4, B := 20, Gx := 1, Gy := 5, N := 37, H := 1, BitSize := 6 }
    ScalarBaseMult toy 0 = (0, 0) ∧
    Add toy 0 0 1 5 = (1, 5) ∧
    Add toy 1 5 0 0 = (1, 5) ∧
    Double toy 0 0 = (0, 0) ∧
    IsOnCurve toy 0 0 = false :=
  C5_infinity_identities _ 1 5 (by norm_num) (by decide) (by decide)

/-- C8 counterexample: `Deriv` of `[5, -4, 3, 3]` over 𝔽₇ is
`[3, 6, 2]` (that is, `2x² + 6x + 3`), not the `[0, 0, 3]` the claim
states. -/
theorem C8_deriv_counterexample :
    Poly.Deriv [5, -4, 3, 3] 7 = [3, 6, 2] ∧
    Poly.Deriv [5, -4, 3, 3] 7 ≠ [0, 0, 3] := by
  constructor <;> decide

/-- C8 amended: `Deriv` applied to the coefficient sequence
`[5, -4, 3, 3]` (constant term first, i.e. `3x³+3x²-4x+5`) with modulus
7 returns `[3, 6, 2]` (i.e. `2x²+6x+3`). -/
theorem C8_deriv_literal : Poly.Deriv [5, -4, 3, 3] 7 = [3, 6, 2] := by
  decide

/-! ### Long division: supporting lemmas -/

theorem coeff_replicate_zero (n i : Nat) :
    coeff (List.replicate n (0 : Int)) i = 0 := by
  unfold coeff
  rw [List.getD_eq_getElem?_getD, List.getElem?_replicate]
  by_cases h : i < n <;> simp [h]

theorem coeff_map_mulRight (r : Int) :
    ∀ (q : Poly) (i : Nat), coeff (q.map (· * r)) i = coeff q i * r
  | [], i => by simp [coeff_nil]
  | b :: q, 0 => rfl
  | b :: q, i+1 => by
    simp only [List.map_cons, coeff_cons_succ]
    exact coeff_map_mulRight r q i

/-- Coefficients of the subtracted multiple
`u = 0^rd ++ q·r` in the division loop. -/
theorem coeff_u (q : Poly) (r : Int) (rd i : Nat) :
    coeff (List.replicate rd 0 ++ q.map (· * r)) i =
      if rd ≤ i then coeff q (i - rd) * r else 0 := by
  unfold coeff
  rw [List.getD_eq_getElem?_getD, List.getElem?_append]
  by_cases h : i < rd
  · rw [if_pos (by simpa using h), if_neg (by omega)]
    rw [List.getElem?_replicate, if_pos h]
    rfl
  · rw [if_neg (by simpa using h), if_pos (by omega)]
    simp only [List.length_replicate]
    have := coeff_map_mulRight r q (i - rd)
    unfold coeff at this
    rw [List.getD_eq_getElem?_getD] at this
    exact this

theorem coeff_set (l : Poly) (n : Nat) (a : Int) (i : Nat) :
    coeff (l.set n a) i =
      if n = i ∧ n < l.length then a else coeff l i := by
  unfold coeff
  rw [List.getD_eq_getElem?_getD, List.getD_eq_getElem?_getD,
    List.getElem?_set]
  by_cases h1 : n = i
  · subst h1
    by_cases h2 : n < l.length
    · simp [h2]
    · rw [if_pos rfl, if_neg h2, if_neg (by omega)]
      rw [List.getElem?_eq_none (by omega)]
  · rw [if_neg h1, if_neg (by tauto)]

theorem convCoeff_zeros (n : Nat) (q : Poly) (i : Nat) :
    convCoeff (List.replicate n 0) q i = 0 := by
  unfold convCoeff
  apply Finset.sum_eq_zero
  intro j _
  rw [coeff_replicate_zero, Int.zero_mul]

theorem convCoeff_singleton_zero (q : Poly) (i : Nat) :
    convCoeff [0] q i = 0 := by
  unfold convCoeff
  apply Finset.sum_eq_zero
  intro j _
  have : coeff [0] j = 0 := by
    cases j with
    | zero => rfl
    | succ k => simp [coeff, List.getD_eq_getElem?_getD]
  rw [this, Int.zero_mul]

/-- Updating a zero slot of the quotient adds one convolution term. -/
theorem convCoeff_set (quo q : Poly) (rd : Nat) (r : Int) (i : Nat)
    (hrd : rd < quo.length) (h0 : coeff quo rd = 0) :
    convCoeff (quo.set rd r) q i =
      convCoeff quo q i + (if rd ≤ i then r * coeff q (i - rd) else 0) := by
  unfold convCoeff
  by_cases hle : rd ≤ i
  · rw [if_pos hle]
    have hmem : rd ∈ Finset.range (i+1) := by
      simp
      omega
    rw [← Finset.sum_erase_add _ _ hmem, ← Finset.sum_erase_add _ _ hmem]
    have hsum : ∑ j ∈ (Finset.range (i+1)).erase rd,
        coeff (quo.set rd r) j * coeff q (i - j) =
        ∑ j ∈ (Finset.range (i+1)).erase rd,
        coeff quo j * coeff q (i - j) := by
      apply Finset.sum_congr rfl
      intro j hj
      have hne : rd ≠ j := (Finset.ne_of_mem_erase hj).symm
      rw [coeff_set, if_neg (by tauto)]
    rw [hsum, coeff_set, if_pos ⟨rfl, hrd⟩, h0]
    ring
  · rw [if_neg hle, Int.add_zero]
    apply Finset.sum_congr rfl
    intro j hj
    have hji : j ≤ i := by
      have := Finset.mem_range.1 hj
      omega
    have hne : rd ≠ j := by omega
    rw [coeff_set, if_neg (by tauto)]

theorem subCore_length (m : Int) :
    ∀ (p q : Poly), (subCore p q m).length = max p.length q.length
  | p, [] => by cases p <;> simp [subCore]
  | [], b :: q => by simp [subCore]
  | a :: p, b :: q => by
    simp only [subCore, List.length_cons]
    rw [subCore_length m p q]
    omega

theorem dzk_length_le : ∀ (l : Poly), (dzk l).length ≤ l.length := by
  intro l
  obtain ⟨n, hn⟩ := dzk_spec l
  have := congrArg List.length hn
  simp at this
  omega

/-- Dropping a zero top coefficient shrinks the trim, except for the
zero singleton. -/
theorem trim_top_zero {l : Poly} (hne : l ≠ [])
    (htop : coeff l (l.length - 1) = 0) :
    (trim l).length ≤ l.length - 1 ∨ trim l = [0] := by
  rcases hrev : l.reverse with _ | ⟨a, rest⟩
  · exact absurd (by simpa using hrev) hne
  · have ha : a = 0 := by
      have h1 : l = rest.reverse ++ [a] := by
        have := congrArg List.reverse hrev
        simpa using this
      have h2 : l.length = rest.length + 1 := by
        rw [h1]; simp
      rw [h1] at htop
      have h3 : (rest.reverse ++ [a]).length - 1 = rest.reverse.length := by
        simp
      rw [h3, coeff_reverse_head] at htop
      exact htop
    subst ha
    rcases rest with _ | ⟨b, rest'⟩
    · right
      have : l = [0] := by
        have := congrArg List.reverse hrev
        simpa using this
      rw [this]
      rfl
    · left
      have hdzk : dzk l.reverse = dzk (b :: rest') := by
        rw [hrev]
        simp [dzk]
      have hlen : l.length = rest'.length + 2 := by
        have := congrArg List.length hrev
        simpa using this
      have : (trim l).length = (dzk l.reverse).length := by
        unfold trim
        simp
      rw [this, hdzk]
      have := dzk_length_le (b :: rest')
      simp at this
      omega

/-- The loop is inert on the zero remainder. -/
theorem divLoop_zero_rem (fuel : Nat) (quo q : Poly) (m : Int) :
    divLoop fuel quo [0] q m = (quo, [0]) := by
  cases fuel with
  | zero => rfl
  | succ f =>
    unfold divLoop
    rw [if_pos (by simp [isZero])]

theorem int_add_emod_absorb (X Y m : Int) : (X + Y % m) % m = (X + Y) % m := by
  rw [Int.add_emod X (Y % m), Int.emod_emod_of_dvd _ dvd_rfl, ← Int.add_emod]

/-- Correctness of the long-division loop: the invariant
`F ≡ quo·q + rem (mod m)` is preserved, and with enough fuel the loop
exits with a remainder shorter than the divisor or zero.  Requires an
invertible leading divisor coefficient. -/
theorem divLoop_spec (q : Poly) (m : Int) (hq : q ≠ [])
    (hinv : intModInverse (coeff q (q.length - 1)) m * coeff q (q.length - 1) % m
      = 1 % m)
    (F : Nat → Int) :
    ∀ (fuel : Nat) (quo rem : Poly),
      rem ≠ [] →
      rem.length ≤ fuel + (q.length - 1) →
      rem.length ≤ quo.length + q.length - 1 →
      (∀ j, j + q.length ≤ rem.length → coeff quo j = 0) →
      (∀ i, F i % m = (convCoeff quo q i + coeff rem i) % m) →
      (∀ i, F i % m =
          (convCoeff (divLoop fuel quo rem q m).1 q i +
            coeff (divLoop fuel quo rem q m).2 i) % m) ∧
      ((divLoop fuel quo rem q m).2.length < q.length ∨
        isZero (divLoop fuel quo rem q m).2 = true) ∧
      (divLoop fuel quo rem q m).2 ≠ [] := by
  have hqlen : 1 ≤ q.length := List.length_pos.2 hq
  intro fuel
  induction fuel with
  | zero =>
    intro quo rem h1 h2 _ _ h5
    rw [show divLoop 0 quo rem q m = (quo, rem) from rfl]
    refine ⟨h5, Or.inl ?_, h1⟩
    show rem.length < q.length
    have := List.length_pos.2 h1
    omega
  | succ fuel ih =>
    intro quo rem h1 h2 h3 h4 h5
    have hrlen : 1 ≤ rem.length := List.length_pos.2 h1
    by_cases hstop : rem.length - 1 < q.length - 1 ∨ isZero rem = true
    · have hred : divLoop (fuel+1) quo rem q m = (quo, rem) := by
        unfold divLoop
        rw [if_pos hstop]
      rw [hred]
      refine ⟨h5, ?_, h1⟩
      rcases hstop with hlt | hz
      · exact Or.inl (show rem.length < q.length by omega)
      · exact Or.inr hz
    · have hge : q.length ≤ rem.length := by
        push_neg at hstop
        omega
      -- abbreviations matching the loop body
      set td := rem.length - 1 with htd
      set qd := q.length - 1 with hqd
      set rd := td - qd with hrd
      set r := intModInverse (coeff q qd) m * coeff rem td % m with hr
      set u := List.replicate rd (0 : Int) ++ q.map (· * r) with hu
      have hred : divLoop (fuel+1) quo rem q m =
          divLoop fuel (quo.set rd r) (Poly.Sub rem u m) q m := by
        simp only [divLoop]
        rw [if_neg hstop]
      rw [hred]
      have f1 : rd + q.length = rem.length := by omega
      have f2 : rd < quo.length := by omega
      have f3 : coeff quo rd = 0 := h4 rd (by omega)
      have hulen : u.length = rem.length := by
        rw [hu]
        simp only [List.length_append, List.length_replicate, List.length_map]
        omega
      -- the invariant after one step
      have hINV' : ∀ i, F i % m =
          (convCoeff (quo.set rd r) q i + coeff (Poly.Sub rem u m) i) % m := by
        intro i
        rw [convCoeff_set quo q rd r i f2 f3, coeff_Sub, hu, coeff_u, h5 i]
        rw [int_add_emod_absorb]
        by_cases hi : rd ≤ i
        · rw [if_pos hi, if_pos hi]
          congr 1
          ring
        · rw [if_neg hi, if_neg hi]
          congr 1
          ring
      -- the top coefficient of the new remainder vanishes
      have hsublen : (subCore rem u m).length = rem.length := by
        rw [subCore_length, hulen]
        omega
      have hsubne : subCore rem u m ≠ [] := by
        intro hnil
        rw [hnil] at hsublen
        simp at hsublen
        omega
      have htop0 : coeff (subCore rem u m) ((subCore rem u m).length - 1) = 0 := by
        rw [hsublen, coeff_subCore, hu, coeff_u, if_pos (by omega : rd ≤ td)]
        have htdrd : td - rd = qd := by omega
        rw [htdrd]
        set c := coeff rem td with hc
        set qc := coeff q qd with hqc
        have e2 : Int.ModEq m (intModInverse qc m * c % m) (intModInverse qc m * c) :=
          Int.emod_emod_of_dvd _ dvd_rfl
        have e3 : Int.ModEq m (c - qc * (intModInverse qc m * c % m))
            (c - qc * (intModInverse qc m * c)) :=
          (Int.ModEq.refl c).sub ((Int.ModEq.refl qc).mul e2)
        have e4 : c - qc * (intModInverse qc m * c) =
            c - intModInverse qc m * qc * c := by ring
        have e5 : Int.ModEq m (intModInverse qc m * qc * c) (1 * c) :=
          Int.ModEq.mul hinv (Int.ModEq.refl c)
        have e6 : Int.ModEq m (c - qc * (intModInverse qc m * c % m)) 0 := by
          calc c - qc * (intModInverse qc m * c % m)
              ≡ c - qc * (intModInverse qc m * c) [ZMOD m] := e3
            _ = c - intModInverse qc m * qc * c := e4
            _ ≡ c - 1 * c [ZMOD m] := (Int.ModEq.refl c).sub e5
            _ = 0 := by ring
        have := e6
        unfold Int.ModEq at this
        rw [this, Int.zero_emod]
      have hlen' : (Poly.Sub rem u m).length ≤ td ∨ Poly.Sub rem u m = [0] := by
        have := trim_top_zero hsubne htop0
        rw [hsublen] at this
        exact this
      rcases hlen' with hsmall | hzero
      · -- recurse with the shrunk remainder
        have h1' : Poly.Sub rem u m ≠ [] := trim_ne_nil hsubne
        have h2' : (Poly.Sub rem u m).length ≤ fuel + (q.length - 1) := by omega
        have h3' : (Poly.Sub rem u m).length ≤ (quo.set rd r).length + q.length - 1 := by
          rw [List.length_set]
          omega
        have h4' : ∀ j, j + q.length ≤ (Poly.Sub rem u m).length →
            coeff (quo.set rd r) j = 0 := by
          intro j hj
          have hjrd : rd ≠ j := by omega
          rw [coeff_set, if_neg (by tauto)]
          exact h4 j (by omega)
        exact ih (quo.set rd r) (Poly.Sub rem u m) h1' h2' h3' h4' hINV'
      · -- the remainder collapsed to the zero polynomial
        rw [hzero, divLoop_zero_rem]
        refine ⟨?_, Or.inr (by rfl), by simp⟩
        intro i
        have := hINV' i
        rw [hzero] at this
        exact this

/-- A reduced list is fixed by the coefficientwise `mod`. -/
theorem map_emod_of_red {m : Int} :
    ∀ {p : Poly}, Red m p → p.map (· % m) = p
  | [], _ => rfl
  | a :: p, h => by
    have ha := h a (List.mem_cons_self a p)
    have ht : Red m p := fun b hb => h b (List.mem_cons_of_mem a hb)
    simp only [List.map_cons]
    rw [Int.emod_eq_of_lt ha.1 ha.2, map_emod_of_red ht]

/-- The division loop never changes the quotient's length. -/
theorem divLoop_quo_length (q : Poly) (m : Int) :
    ∀ (fuel : Nat) (quo rem : Poly),
      ((divLoop fuel quo rem q m).1).length = quo.length
  | 0, quo, rem => rfl
  | fuel+1, quo, rem => by
    simp only [divLoop]
    split
    · rfl
    · rw [divLoop_quo_length q m fuel]
      exact List.length_set ..

/-- With an invertible leading divisor coefficient, the division loop
never writes a quotient slot at index `j` once the remainder is shorter
than `j + len q`: subsequent writes land strictly below `j`. -/
theorem divLoop_coeff_quo_stable (q : Poly) (m : Int) (hq : q ≠ [])
    (hinv : intModInverse (coeff q (q.length - 1)) m * coeff q (q.length - 1) % m
      = 1 % m) (j : Nat) :
    ∀ (fuel : Nat) (quo rem : Poly),
      rem ≠ [] →
      rem.length < j + q.length →
      coeff (divLoop fuel quo rem q m).1 j = coeff quo j := by
  have hqlen : 1 ≤ q.length := List.length_pos.2 hq
  intro fuel
  induction fuel with
  | zero => intro quo rem _ _; rfl
  | succ fuel ih =>
    intro quo rem h1 h2
    have hrlen : 1 ≤ rem.length := List.length_pos.2 h1
    by_cases hstop : rem.length - 1 < q.length - 1 ∨ isZero rem = true
    · have hred : divLoop (fuel+1) quo rem q m = (quo, rem) := by
        unfold divLoop
        rw [if_pos hstop]
      rw [hred]
    · have hge : q.length ≤ rem.length := by
        push_neg at hstop
        omega
      set td := rem.length - 1 with htd
      set qd := q.length - 1 with hqd
      set rd := td - qd with hrd
      set r := intModInverse (coeff q qd) m * coeff rem td % m with hr
      set u := List.replicate rd (0 : Int) ++ q.map (· * r) with hu
      have hred : divLoop (fuel+1) quo rem q m =
          divLoop fuel (quo.set rd r) (Poly.Sub rem u m) q m := by
        simp only [divLoop]
        rw [if_neg hstop]
      rw [hred]
      have hulen : u.length = rem.length := by
        rw [hu]
        simp only [List.length_append, List.length_replicate, List.length_map]
        omega
      have hsublen : (subCore rem u m).length = rem.length := by
        rw [subCore_length, hulen]
        omega
      have hsubne : subCore rem u m ≠ [] := by
        intro hnil
        rw [hnil] at hsublen
        simp at hsublen
        omega
      have htop0 : coeff (subCore rem u m) ((subCore rem u m).length - 1) = 0 := by
        rw [hsublen, coeff_subCore, hu, coeff_u, if_pos (by omega : rd ≤ td)]
        have htdrd : td - rd = qd := by omega
        rw [htdrd]
        set c := coeff rem td with hc
        set qc := coeff q qd with hqc
        have e2 : Int.ModEq m (intModInverse qc m * c % m) (intModInverse qc m * c) :=
          Int.emod_emod_of_dvd _ dvd_rfl
        have e3 : Int.ModEq m (c - qc * (intModInverse qc m * c % m))
            (c - qc * (intModInverse qc m * c)) :=
          (Int.ModEq.refl c).sub ((Int.ModEq.refl qc).mul e2)
        have e4 : c - qc * (intModInverse qc m * c) =
            c - intModInverse qc m * qc * c := by ring
        have e5 : Int.ModEq m (intModInverse qc m * qc * c) (1 * c) :=
          Int.ModEq.mul hinv (Int.ModEq.refl c)
        have e6 : Int.ModEq m (c - qc * (intModInverse qc m * c % m)) 0 := by
          calc c - qc * (intModInverse qc m * c % m)
              ≡ c - qc * (intModInverse qc m * c) [ZMOD m] := e3
            _ = c - intModInverse qc m * qc * c := e4
            _ ≡ c - 1 * c [ZMOD m] := (Int.ModEq.refl c).sub e5
            _ = 0 := by ring
        have := e6
        unfold Int.ModEq at this
        rw [this, Int.zero_emod]
      have hlen' : (Poly.Sub rem u m).length ≤ td ∨ Poly.Sub rem u m = [0] := by
        have := trim_top_zero hsubne htop0
        rw [hsublen] at this
        exact this
      have hrdj : rd ≠ j := by omega
      have hset : coeff (quo.set rd r) j = coeff quo j := by
        rw [coeff_set, if_neg (by tauto)]
      rcases hlen' with hsmall | hzero
      · have h1' : Poly.Sub rem u m ≠ [] := trim_ne_nil hsubne
        have h2' : (Poly.Sub rem u m).length < j + q.length := by omega
        rw [ih (quo.set rd r) (Poly.Sub rem u m) h1' h2']
        exact hset
      · rw [hzero, divLoop_zero_rem]
        exact hset

/-- For a reduced, trimmed, nonzero polynomial whose leading coefficient
is invertible mod `m`, `Monic` keeps the length and normalises the
leading coefficient to `1`. -/
theorem monic_leading (p : Poly) (m : Int) (hm : 1 < m)
    (hp : Red m p) (hpt : Trimmed p) (hnz : isZero p = false)
    (hgcd : Int.gcd (coeff p (Deg p)) m = 1) :
    (Monic p m).length = p.length ∧ coeff (Monic p m) (Deg p) = 1 := by
  have hpne : p ≠ [] := hpt.1
  have hplen : 1 ≤ p.length := List.length_pos.2 hpne
  have e1 : p.map (· % m) = p := map_emod_of_red hp
  have e2 : p.length - 1 + 1 = p.length := by omega
  obtain ⟨k, hk⟩ : ∃ k, p.length = k + 1 := ⟨p.length - 1, by omega⟩
  have hDeg : Deg p = k := by unfold Deg; omega
  have hdiv : Poly.Div p [coeff p (Deg p)] m =
      divLoop p.length (List.replicate p.length 0) p [coeff p (Deg p)] m := by
    simp only [Poly.Div, e1, List.length_singleton]
    rw [if_neg (by omega), e2]
  have hmon : Monic p m = (divLoop p.length (List.replicate p.length 0) p
      [coeff p (Deg p)] m).1 := by
    unfold Monic
    rw [hdiv]
  constructor
  · rw [hmon, divLoop_quo_length]
    simp
  · rw [hmon, hDeg, hk]
    have hgcd' : Int.gcd (coeff p k) m = 1 := by rw [← hDeg]; exact hgcd
    set lc := coeff p k with hlc
    have hinv := intModInverse_spec hm hgcd'
    set quo0 := List.replicate (k+1) (0 : Int) with hquo0
    set qd := ([lc] : Poly).length - 1 with hqd
    have hqd0 : qd = 0 := by rw [hqd]; rfl
    set td := p.length - 1 with htd
    have htdk : td = k := by omega
    set r := intModInverse (coeff [lc] qd) m * coeff p td % m with hr
    set rd := td - qd with hrd
    have hrdk : rd = k := by omega
    set u := List.replicate rd (0 : Int) ++ [lc].map (· * r) with hu
    have hstop : ¬ (td < qd ∨ isZero p = true) := by
      push_neg
      exact ⟨by omega, by simp [hnz]⟩
    have hred : divLoop (k+1) quo0 p [lc] m =
        divLoop k (quo0.set rd r) (Poly.Sub p u m) [lc] m := by
      simp only [divLoop]
      rw [if_neg hstop]
    rw [hred]
    have hr1 : r = 1 := by
      rw [hr, hqd0, htdk]
      have h0 : coeff [lc] 0 = lc := rfl
      rw [h0, ← hlc, hinv]
      exact Int.emod_eq_of_lt (by norm_num) hm
    rw [hr1, hrdk]
    by_cases hk0 : k = 0
    · rw [hk0]
      have hstep : divLoop 0 (quo0.set 0 1) (Poly.Sub p u m) [lc] m =
          (quo0.set 0 1, Poly.Sub p u m) := rfl
      rw [hstep]
      show coeff (quo0.set 0 1) 0 = 1
      rw [coeff_set,
        if_pos ⟨rfl, by rw [hquo0]; simp only [List.length_replicate]; omega⟩]
    · have hk1 : 1 ≤ k := by omega
      have hqne : ([lc] : Poly) ≠ [] := by simp
      have hulen : u.length = p.length := by
        rw [hu]
        simp only [List.length_append, List.length_replicate, List.length_map,
          List.length_singleton]
        omega
      have hsublen : (subCore p u m).length = p.length := by
        rw [subCore_length, hulen]
        omega
      have hsubne : subCore p u m ≠ [] := by
        intro hnil
        rw [hnil] at hsublen
        simp at hsublen
        omega
      have hpk : p.length - 1 = k := by omega
      have htop0 : coeff (subCore p u m) ((subCore p u m).length - 1) = 0 := by
        rw [hsublen, coeff_subCore, hpk, hu, coeff_u,
          if_pos (by omega : rd ≤ k), show k - rd = 0 from by omega]
        have h0 : coeff [lc] 0 = lc := rfl
        rw [h0, ← hlc, hr1]
        simp
      have hlen' : (Poly.Sub p u m).length ≤ p.length - 1 ∨
          Poly.Sub p u m = [0] := by
        have := trim_top_zero hsubne htop0
        rw [hsublen] at this
        exact this
      have hremne : Poly.Sub p u m ≠ [] := trim_ne_nil hsubne
      have hremlen : (Poly.Sub p u m).length < k + ([lc] : Poly).length := by
        simp only [List.length_singleton]
        rcases hlen' with h | h
        · omega
        · rw [h]
          simp only [List.length_cons, List.length_nil]
          omega
      rw [divLoop_coeff_quo_stable [lc] m hqne hinv k k (quo0.set k 1)
        (Poly.Sub p u m) hremne hremlen]
      rw [coeff_set,
        if_pos ⟨rfl, by rw [hquo0]; simp only [List.length_replicate]; omega⟩]

/-- The Euclid loop's final first component is nonzero whenever the
initial `oldR` is: every later `oldR` passed the loop guard. -/
theorem egcdPolyLoop_fst_nonzero (m : Int) :
    ∀ (fuel : Nat) (oldR r oldS s oldT t : Poly),
      isZero oldR = false →
      isZero (egcdPolyLoop fuel oldR r oldS s oldT t m).1 = false
  | 0, oldR, r, oldS, s, oldT, t, h => h
  | fuel+1, oldR, r, oldS, s, oldT, t, h => by
    by_cases hz : isZero r = true
    · have hred : egcdPolyLoop (fuel+1) oldR r oldS s oldT t m =
          (oldR, oldS, oldT) := by
        simp only [egcdPolyLoop]
        rw [if_pos hz]
      rw [hred]
      exact h
    · have hred : egcdPolyLoop (fuel+1) oldR r oldS s oldT t m =
          egcdPolyLoop fuel r
            (Poly.Sub oldR (Poly.Mul (Poly.Div oldR r m).1 r m) m)
            s (Poly.Sub oldS (Poly.Mul (Poly.Div oldR r m).1 s m) m)
            t (Poly.Sub oldT (Poly.Mul (Poly.Div oldR r m).1 t m) m) m := by
        simp only [egcdPolyLoop]
        rw [if_neg hz]
      rw [hred]
      exact egcdPolyLoop_fst_nonzero m fuel _ _ _ _ _ _ (by simpa using hz)

/-- Over a prime modulus, the leading coefficient of a reduced, trimmed,
nonzero polynomial is coprime to the modulus. -/
theorem red_trimmed_leading_coprime {m : Int} (p : Poly)
    (hm : 1 < m) (hprime : Prime m)
    (hr : Red m p) (ht : Trimmed p) (hnz : isZero p = false) :
    Int.gcd (coeff p (Deg p)) m = 1 := by
  have hpne : p ≠ [] := ht.1
  have hplen : 1 ≤ p.length := List.length_pos.2 hpne
  have hmem : coeff p (Deg p) ∈ p := by
    have hlt : p.length - 1 < p.length := by omega
    unfold coeff Deg
    rw [List.getD_eq_getElem?_getD, List.getElem?_eq_getElem hlt]
    exact List.getElem_mem ..
  have hlc0 : coeff p (Deg p) ≠ 0 := by
    by_cases hlen : 1 < p.length
    · exact ht.2 hlen
    · rcases p with _ | ⟨a, rest⟩
      · simp at hplen
      · rcases rest with _ | ⟨b, rest'⟩
        · intro ha
          have ha' : a = 0 := by simpa [coeff, Deg] using ha
          rw [ha'] at hnz
          exact absurd hnz (by decide)
        · exact absurd (by simp) hlen
  obtain ⟨hge, hlt⟩ := hr _ hmem
  have hmNat : m.natAbs.Prime := Int.prime_iff_natAbs_prime.mp hprime
  have hnd : ¬ m.natAbs ∣ (coeff p (Deg p)).natAbs :=
    Nat.not_dvd_of_pos_of_lt (by omega) (by omega)
  have hcop : Nat.Coprime m.natAbs (coeff p (Deg p)).natAbs :=
    (Nat.Prime.coprime_iff_not_dvd hmNat).mpr hnd
  exact Nat.coprime_comm.mp hcop

/-- C6: for a modulus `m > 1` with the leading coefficient of `Q`
invertible mod `m` (in particular for every prime `m` with that leading
coefficient nonzero mod `m`) and `Q` nonzero, `Div(P, Q, m)` returns a
pair `(quo, rem)` with `P ≡ quo·Q + rem (mod m)` coefficientwise and
`deg rem < deg Q` (with the zero remainder counted as degree `-∞`, i.e.
the `isZero` disjunct). -/
theorem C6_div_law (P Q : Poly) (m : Int) (hm : 1 < m)
    (hP : P ≠ []) (hQ : Q ≠ [])
    (hgcd : Int.gcd (coeff Q (Deg Q)) m = 1) :
    (∀ i, coeff P i % m =
        coeff (Poly.Add (Poly.Mul (Poly.Div P Q m).1 Q m)
          (Poly.Div P Q m).2 m) i % m) ∧
    (isZero (Poly.Div P Q m).2 = true ∨ Deg (Poly.Div P Q m).2 < Deg Q) := by
  have hQlen : 1 ≤ Q.length := List.length_pos.2 hQ
  have hPlen : 1 ≤ P.length := List.length_pos.2 hP
  have hgcd' : Int.gcd (coeff Q (Q.length - 1)) m = 1 := hgcd
  have hinv := intModInverse_spec hm hgcd'
  set ps := P.map (· % m) with hps
  have hpslen : ps.length = P.length := by rw [hps, List.length_map]
  by_cases hsz : ps.length < Q.length
  · have hdiv : Poly.Div P Q m = ([0], ps) := by
      simp only [Poly.Div]
      rw [if_pos hsz]
    rw [hdiv]
    constructor
    · intro i
      show coeff P i % m = coeff (Poly.Add (Poly.Mul [0] Q m) ps m) i % m
      rw [coeff_Add, coeff_Mul, convCoeff_singleton_zero, Int.zero_emod,
        Int.zero_add]
      rw [hps, coeff_map_emod, Int.emod_emod_of_dvd _ dvd_rfl]
    · right
      show Deg ps < Deg Q
      unfold Deg
      omega
  · have hdiv : Poly.Div P Q m =
        divLoop ps.length (List.replicate (ps.length - Q.length + 1) 0) ps Q m := by
      simp only [Poly.Div]
      rw [if_neg hsz]
    have hbase : ∀ i, coeff P i % m =
        (convCoeff (List.replicate (ps.length - Q.length + 1) 0) Q i +
          coeff ps i) % m := by
      intro i
      rw [convCoeff_zeros, Int.zero_add, hps, coeff_map_emod,
        Int.emod_emod_of_dvd _ dvd_rfl]
    obtain ⟨hI, hE, hne⟩ := divLoop_spec Q m hQ hinv (coeff P) ps.length
      (List.replicate (ps.length - Q.length + 1) 0) ps
      (by
        intro hnil
        rw [hnil] at hpslen
        simp at hpslen
        omega)
      (by omega)
      (by
        rw [List.length_replicate]
        omega)
      (fun j _ => coeff_replicate_zero _ j)
      hbase
    constructor
    · intro i
      rw [hdiv, coeff_Add, coeff_Mul, Int.add_comm, int_add_emod_absorb,
        Int.add_comm]
      exact hI i
    · rw [hdiv]
      rcases hE with hlt | hz
      · right
        have := List.length_pos.2 hne
        unfold Deg
        omega
      · exact Or.inl hz

/-- Witness for C6: division of `x² + 4x + 3` by `x + 1` over 𝔽₇. -/
theorem C6_div_law_witness :
    ((1:Int) < 7 ∧ ([3, 4, 1] : Poly) ≠ [] ∧ ([1, 1] : Poly) ≠ [] ∧
      Int.gcd (coeff [1, 1] (Deg [1, 1])) 7 = 1) ∧
    ((∀ i, coeff [3, 4, 1] i % 7 =
        coeff (Poly.Add (Poly.Mul (Poly.Div [3, 4, 1] [1, 1] 7).1 [1, 1] 7)
          (Poly.Div [3, 4, 1] [1, 1] 7).2 7) i % 7) ∧
      (isZero (Poly.Div [3, 4, 1] [1, 1] 7).2 = true ∨
        Deg (Poly.Div [3, 4, 1] [1, 1] 7).2 < Deg [1, 1])) :=
  ⟨⟨by norm_num, by decide, by decide, by decide⟩,
    C6_div_law [3, 4, 1] [1, 1] 7 (by norm_num) (by decide) (by decide)
      (by decide)⟩

/-! ### Interpretation into `Polynomial ℤ` for the extended-gcd claim -/

/-- The polynomial denoted by a coefficient list. -/
noncomputable def toP (l : Poly) : Polynomial ℤ :=
  ∑ j ∈ Finset.range l.length, Polynomial.C (coeff l j) * Polynomial.X ^ j

theorem toP_coeff (l : Poly) (i : Nat) : (toP l).coeff i = coeff l i := by
  unfold toP
  rw [Polynomial.finset_sum_coeff]
  simp only [Polynomial.coeff_C_mul, Polynomial.coeff_X_pow]
  rw [Finset.sum_eq_single i]
  · simp
  · intro j _ hji
    simp [Ne.symm hji]
  · intro hnot
    simp only [Finset.mem_range, not_lt] at hnot
    have : coeff l i = 0 := by
      unfold coeff
      rw [List.getD_eq_getElem?_getD, List.getElem?_eq_none hnot]
      rfl
    simp [this]

/-- Coefficientwise congruence of a list with an abstract polynomial. -/
def CongrP (m : Int) (x : Poly) (φ : Polynomial ℤ) : Prop :=
  ∀ i, coeff x i % m = φ.coeff i % m

theorem congrP_toP (m : Int) (x : Poly) : CongrP m x (toP x) := by
  intro i
  rw [toP_coeff]

theorem congrP_of_eq {m : Int} {x : Poly} {φ ψ : Polynomial ℤ}
    (h : CongrP m x φ) (he : φ = ψ) : CongrP m x ψ := he ▸ h

theorem congrP_Sub {m : Int} {x y : Poly} {φ ψ : Polynomial ℤ}
    (hx : CongrP m x φ) (hy : CongrP m y ψ) :
    CongrP m (Poly.Sub x y m) (φ - ψ) := by
  intro i
  rw [coeff_Sub, Polynomial.coeff_sub, Int.emod_emod_of_dvd _ dvd_rfl,
    Int.sub_emod, hx i, hy i, ← Int.sub_emod]

theorem congrP_Add {m : Int} {x y : Poly} {φ ψ : Polynomial ℤ}
    (hx : CongrP m x φ) (hy : CongrP m y ψ) :
    CongrP m (Poly.Add x y m) (φ + ψ) := by
  intro i
  rw [coeff_Add, Polynomial.coeff_add,
    Int.add_emod, hx i, hy i, ← Int.add_emod]

theorem sum_congr_mod (m : Int) (s : Finset Nat) (f g : Nat → Int)
    (h : ∀ j ∈ s, f j % m = g j % m) :
    (∑ j ∈ s, f j) % m = (∑ j ∈ s, g j) % m := by
  rw [Finset.sum_int_mod s m f, Finset.sum_int_mod s m g,
    Finset.sum_congr rfl h]

theorem congrP_Mul {m : Int} {x y : Poly} {φ ψ : Polynomial ℤ}
    (hx : CongrP m x φ) (hy : CongrP m y ψ) :
    CongrP m (Poly.Mul x y m) (φ * ψ) := by
  intro i
  rw [coeff_Mul, Int.emod_emod_of_dvd _ dvd_rfl, Polynomial.coeff_mul,
    Finset.Nat.sum_antidiagonal_eq_sum_range_succ_mk]
  unfold convCoeff
  apply sum_congr_mod
  intro j _
  rw [Int.mul_emod, hx j, hy (i - j), ← Int.mul_emod]

/-! ### Nonemptiness of products and sums -/

theorem padAdd_ne_nil {p : List Int} (q : List Int) (hp : p ≠ []) :
    padAdd p q ≠ [] := by
  cases p with
  | nil => exact absurd rfl hp
  | cons a p' => cases q <;> simp [padAdd]

theorem conv_ne_nil {p q : Poly} (hp : p ≠ []) (hq : q ≠ []) :
    conv p q ≠ [] := by
  cases p with
  | nil => exact absurd rfl hp
  | cons a p' =>
    show padAdd (q.map (a * ·)) (0 :: conv p' q) ≠ []
    apply padAdd_ne_nil
    cases q with
    | nil => exact absurd rfl hq
    | cons b q' => simp

theorem mul_ne_nil {p q : Poly} (hp : p ≠ []) (hq : q ≠ []) :
    Poly.Mul p q m ≠ [] := by
  apply trim_ne_nil
  have := conv_ne_nil hp hq
  cases h : conv p q with
  | nil => exact absurd h this
  | cons a l => simp

theorem addCore_ne_nil {m : Int} : ∀ {p q : Poly}, p ≠ [] →
    addCore p q m ≠ []
  | [], _, hp => absurd rfl hp
  | a :: p, [], _ => by simp [addCore]
  | a :: p, b :: q, _ => by simp [addCore]

theorem add_trimmed {m : Int} {p q : Poly} (hp : p ≠ []) :
    Trimmed (Poly.Add p q m) := by
  unfold Poly.Add
  by_cases h : Cmp p q < 0
  · rw [if_pos h]
    have hq : q ≠ [] := by
      have hlen := length_le_of_cmp_neg h
      have hp' := List.length_pos.2 hp
      intro hnil
      subst hnil
      rw [List.length_nil] at hlen
      omega
    exact trimmed_trim (addCore_ne_nil hq)
  · rw [if_neg h]
    exact trimmed_trim (addCore_ne_nil hp)

theorem add_ne_nil {m : Int} {p q : Poly} (hp : p ≠ []) :
    Poly.Add p q m ≠ [] := (add_trimmed hp).1

theorem sub_trimmed {m : Int} {p q : Poly} (hp : p ≠ []) :
    Trimmed (Poly.Sub p q m) := by
  unfold Poly.Sub
  apply trimmed_trim
  have h1 : 1 ≤ (subCore p q m).length := by
    rw [subCore_length]
    have := List.length_pos.2 hp
    omega
  intro hnil
  rw [hnil] at h1
  simp at h1

theorem sub_ne_nil {m : Int} {p q : Poly} (hp : p ≠ []) :
    Poly.Sub p q m ≠ [] := (sub_trimmed hp).1

theorem mul_trimmed {m : Int} {p q : Poly} (hp : p ≠ []) (hq : q ≠ []) :
    Trimmed (Poly.Mul p q m) := by
  unfold Poly.Mul sanitize
  apply trimmed_trim
  have := conv_ne_nil (p := p) (q := q) hp hq
  cases h : conv p q with
  | nil => exact absurd h this
  | cons a l => simp

/-- The Bezout invariant of the shared Euclidean loop: both running
remainders stay congruent to combinations of `P` and `Q`, the remainders
stay reduced and trimmed, and the cofactors stay nonempty. -/
theorem egcdPolyLoop_spec (P Q : Poly) (m : Int) (pP pQ : Polynomial ℤ)
    (hm : 0 < m) (hPne : P ≠ []) (hQne : Q ≠ [])
    (hP : CongrP m P pP) (hQ : CongrP m Q pQ) :
    ∀ (fuel : Nat) (oldR r oldS s oldT t : Poly)
      (σo τo σ τ : Polynomial ℤ),
      Red m oldR → Trimmed oldR → Red m r → Trimmed r →
      oldS ≠ [] → oldT ≠ [] → s ≠ [] → t ≠ [] →
      CongrP m oldS σo → CongrP m oldT τo → CongrP m s σ → CongrP m t τ →
      CongrP m oldR (σo * pP + τo * pQ) → CongrP m r (σ * pP + τ * pQ) →
      Red m (egcdPolyLoop fuel oldR r oldS s oldT t m).1 ∧
      Trimmed (egcdPolyLoop fuel oldR r oldS s oldT t m).1 ∧
      (egcdPolyLoop fuel oldR r oldS s oldT t m).2.1 ≠ [] ∧
      (egcdPolyLoop fuel oldR r oldS s oldT t m).2.2 ≠ [] ∧
      ∃ σo' τo', CongrP m (egcdPolyLoop fuel oldR r oldS s oldT t m).2.1 σo' ∧
        CongrP m (egcdPolyLoop fuel oldR r oldS s oldT t m).2.2 τo' ∧
        CongrP m (egcdPolyLoop fuel oldR r oldS s oldT t m).1
          (σo' * pP + τo' * pQ) := by
  intro fuel
  induction fuel with
  | zero =>
    intro oldR r oldS s oldT t σo τo σ τ h1 h2 _ _ h5 h6 _ _ h9 h10 _ _ h13 _
    exact ⟨h1, h2, h5, h6, σo, τo, h9, h10, h13⟩
  | succ fuel ih =>
    intro oldR r oldS s oldT t σo τo σ τ h1 h2 h3 h4 h5 h6 h7 h8 h9 h10 h11 h12 h13 h14
    by_cases hz : isZero r = true
    · have hred : egcdPolyLoop (fuel+1) oldR r oldS s oldT t m =
          (oldR, oldS, oldT) := by
        simp only [egcdPolyLoop]
        rw [if_pos hz]
      rw [hred]
      exact ⟨h1, h2, h5, h6, σo, τo, h9, h10, h13⟩
    · have hred : egcdPolyLoop (fuel+1) oldR r oldS s oldT t m =
          egcdPolyLoop fuel r
            (Poly.Sub oldR (Poly.Mul (Poly.Div oldR r m).1 r m) m)
            s (Poly.Sub oldS (Poly.Mul (Poly.Div oldR r m).1 s m) m)
            t (Poly.Sub oldT (Poly.Mul (Poly.Div oldR r m).1 t m) m) m := by
        simp only [egcdPolyLoop]
        rw [if_neg hz]
      rw [hred]
      set quo := (Poly.Div oldR r m).1 with hquo
      have hq : CongrP m quo (toP quo) := congrP_toP m quo
      apply ih
      · exact h3
      · exact h4
      · exact red_Sub hm _ _
      · exact sub_trimmed h2.1
      · exact h7
      · exact h8
      · exact sub_ne_nil h5
      · exact sub_ne_nil h6
      · exact h11
      · exact h12
      · exact congrP_Sub h9 (congrP_Mul hq h11)
      · exact congrP_Sub h10 (congrP_Mul hq h12)
      · exact h14
      · refine congrP_of_eq
          (congrP_Sub h13 (congrP_Mul hq h14)) ?_
        ring

/-- C7 counterexample: `ExtendedGCD([2], [0], 5)` returns
`g = [1], s = [1], t = [0]`, while `s·P + t·Q` computed in 𝔽₅[x] is
`[2] ≠ g`: the Bezout cofactors are not rescaled when the gcd is made
monic, so `g = s·P + t·Q` fails as stated. -/
theorem C7_extended_gcd_counterexample :
    ExtendedGCD [2] [0] 5 = ([1], [1], [0]) ∧
    Poly.Add (Poly.Mul (ExtendedGCD [2] [0] 5).2.1 [2] 5)
      (Poly.Mul (ExtendedGCD [2] [0] 5).2.2 [0] 5) 5 = [2] ∧
    (ExtendedGCD [2] [0] 5).1 ≠
      Poly.Add (Poly.Mul (ExtendedGCD [2] [0] 5).2.1 [2] 5)
        (Poly.Mul (ExtendedGCD [2] [0] 5).2.2 [0] 5) 5 := by
  refine ⟨by decide, by decide, by decide⟩

/-- C7 amended: for every prime modulus `m` and all `P`, `Q` that satisfy
the data model's representation invariant (coefficients reduced mod `m`,
trim invariant — on other inputs the Go division loop need not
terminate), `ExtendedGCD(P, Q, m)` returns `(g, s, t)` with
`g = Monic(s·P + t·Q)` in 𝔽_m[x] — the combination `s·P + t·Q` equals
the final unnormalised Euclidean remainder, and `g` is that remainder
made monic — and `g` is indeed monic (leading coefficient `1`) whenever
`P` is nonzero.  `g = s·P + t·Q` itself fails in general: see the
counterexample, where the combination differs from `g` by the
leading-coefficient normalisation. -/
theorem C7_extended_gcd_monic (P Q : Poly) (m : Int) (hm : 1 < m)
    (hprime : Prime m)
    (hPr : Red m P) (hPt : Trimmed P) (hQr : Red m Q) (hQt : Trimmed Q) :
    ((ExtendedGCD P Q m).1 =
      Monic (Poly.Add (Poly.Mul (ExtendedGCD P Q m).2.1 P m)
        (Poly.Mul (ExtendedGCD P Q m).2.2 Q m) m) m) ∧
    (isZero P = false →
      coeff (ExtendedGCD P Q m).1 (Deg (ExtendedGCD P Q m).1) = 1) := by
  have hm0 : (0:Int) < m := by omega
  have hone : CongrP m [1] 1 := by
    have := congrP_toP m [1]
    refine congrP_of_eq this ?_
    unfold toP
    simp [coeff]
  have hzero : CongrP m [0] 0 := by
    have := congrP_toP m [0]
    refine congrP_of_eq this ?_
    unfold toP
    simp [coeff]
  obtain ⟨hr1, ht1, hs1, hs2, σo, τo, hc1, hc2, hc3⟩ :=
    egcdPolyLoop_spec P Q m (toP P) (toP Q) hm0 hPt.1 hQt.1
      (congrP_toP m P) (congrP_toP m Q)
      (P.length + Q.length + 2) P Q [1] [0] [0] [1]
      1 0 0 1
      hPr hPt hQr hQt
      (by simp) (by simp) (by simp) (by simp)
      hone hzero hzero hone
      (congrP_of_eq (congrP_toP m P) (by ring))
      (congrP_of_eq (congrP_toP m Q) (by ring))
  set R := egcdPolyLoop (P.length + Q.length + 2) P Q [1] [0] [0] [1] m
    with hR
  have hcanon : R.1 =
      Poly.Add (Poly.Mul R.2.1 P m) (Poly.Mul R.2.2 Q m) m := by
    apply eq_of_red_trimmed_congr hm0 hr1
    · exact red_Add hm0 (red_Mul hm0 _ _) (red_Mul hm0 _ _)
    · exact ht1
    · exact add_trimmed (mul_ne_nil hs1 hPt.1)
    · intro i
      rw [hc3 i]
      have hgoal : coeff (Poly.Add (Poly.Mul R.2.1 P m)
          (Poly.Mul R.2.2 Q m) m) i % m = (σo * toP P + τo * toP Q).coeff i % m :=
        congrP_Add (congrP_Mul hc1 (congrP_toP m P))
          (congrP_Mul hc2 (congrP_toP m Q)) i
      rw [hgoal]
  have hE : ExtendedGCD P Q m = (Monic R.1 m, R.2.1, R.2.2) := rfl
  refine ⟨?_, ?_⟩
  · rw [hE]
    show Monic R.1 m = Monic ((R.2.1.Mul P m).Add (R.2.2.Mul Q m) m) m
    conv_lhs => rw [hcanon]
  · intro hPnz
    have hnz : isZero R.1 = false := by
      rw [hR]
      exact egcdPolyLoop_fst_nonzero m (P.length + Q.length + 2)
        P Q [1] [0] [0] [1] hPnz
    have hgcdR := red_trimmed_leading_coprime R.1 hm hprime hr1 ht1 hnz
    have hml := monic_leading R.1 m hm hr1 ht1 hnz hgcdR
    rw [hE]
    show coeff (Monic R.1 m) (Deg (Monic R.1 m)) = 1
    have hdeg : Deg (Monic R.1 m) = Deg R.1 := by
      unfold Deg
      rw [hml.1]
    rw [hdeg]
    exact hml.2

/-- Witness for C7 at `P = x + 3`, `Q = [2]` over 𝔽₅. -/
theorem C7_extended_gcd_monic_witness :
    ((1:Int) < 5 ∧ Prime (5 : Int) ∧ Red 5 [3, 1] ∧ Trimmed [3, 1] ∧
      Red 5 [2] ∧ Trimmed [2]) ∧
    (((ExtendedGCD [3, 1] [2] 5).1 =
      Monic (Poly.Add (Poly.Mul (ExtendedGCD [3, 1] [2] 5).2.1 [3, 1] 5)
        (Poly.Mul (ExtendedGCD [3, 1] [2] 5).2.2 [2] 5) 5) 5) ∧
     (isZero [3, 1] = false →
       coeff (ExtendedGCD [3, 1] [2] 5).1 (Deg (ExtendedGCD [3, 1] [2] 5).1) = 1)) :=
  ⟨⟨by norm_num, by norm_num, by unfold Red; decide, by unfold Trimmed; decide,
      by unfold Red; decide, by unfold Trimmed; decide⟩,
    C7_extended_gcd_monic [3, 1] [2] 5 (by norm_num) (by norm_num)
      (by unfold Red; decide) (by unfold Trimmed; decide)
      (by unfold Red; decide) (by unfold Trimmed; decide)⟩

/-- C3 counterexample: in the quotient ring `𝔽₅[x]/(x³)`, adding the
endomorphisms `(0, 0)` and `(2x² + x, 1)` fails with a zero division,
and the published `DivPolyFactor` is the denominator `2x² + x` itself —
not the (monic, degree-positive) gcd `x` of the denominator with `h`. -/
theorem C3_divpolyfactor_counterexample :
    EndoAdd [0, 0, 0, 1] 5 0 [0, 0, 0, 1]
        (some ([0], [0])) (some ([0, 1, 2], [1])) = .error [0, 1, 2] ∧
    GCD [0, 0, 0, 1] [0, 1, 2] 5 = [0, 1] ∧
    ([0, 1, 2] : Poly) ≠ [0, 1] := by
  refine ⟨rfl, by decide, by decide⟩

/-- C3 amended: when modular inversion of a slope denominator fails
inside `Endo` addition or doubling, the published `DivPolyFactor` is the
denominator itself (whose Euclidean remainder against the modulus `h`
has positive degree — that is why the inversion failed), and the Schoof
trace worker then replaces `h` by `gcd(h, DivPolyFactor)` before
retrying the trace computation. -/
theorem C3_divpolyfactor (h : Poly) (q A : Int) (f : Poly)
    (a1 b1 a2 b2 db1 : Poly) (da : Poly)
    (c : Curve) (ell : Int) (fuel : Nat) (h' fac : Poly)
    (hne : a1 ≠ a2) (hq1 : q ≠ 1)
    (herr : ModInverse (Poly.Sub a2 a1 q) h q = none)
    (herr2 : ModInverse (MulInt (qpoly h q (Poly.Mul db1 f q)) 2 q) h q = none)
    (hbody : traceBody c ell h' = .zeroDiv fac) :
    EndoAdd h q A f (some (a1, b1)) (some (a2, b2)) =
        .error (Poly.Sub a2 a1 q) ∧
    1 < (egcdPolyLoop (h.length + (Poly.Sub a2 a1 q).length + 2) h
        (Poly.Sub a2 a1 q) [1] [0] [0] [1] q).1.length ∧
    EndoDouble h q A f (some (da, db1)) =
        .error (MulInt (qpoly h q (Poly.Mul db1 f q)) 2 q) ∧
    traceLoop c ell (fuel + 1) h' = traceLoop c ell fuel (GCD h' fac c.P) := by
  refine ⟨?_, ?_, ?_, ?_⟩
  · simp only [EndoAdd]
    rw [if_neg hne, herr]
  · unfold ModInverse at herr
    rw [if_neg hq1] at herr
    by_cases hlen : 1 <
        (egcdPolyLoop (h.length + (Poly.Sub a2 a1 q).length + 2) h
          (Poly.Sub a2 a1 q) [1] [0] [0] [1] q).1.length
    · exact hlen
    · rw [if_neg hlen] at herr
      cases herr
  · simp only [EndoDouble]
    rw [herr2]
  · simp only [traceLoop]
    rw [hbody]

/-- C4: on the reachable input `P = 5, A = 0, B = 0`, `ℓ = 3` — where
Frobenius satisfies no candidate trace and `h` collapses (here to `x³`,
with the published factor the zero polynomial, so `gcd(h, factor) = h`
and the state repeats) — the `TraceMod` worker never posts anything, for
any amount of fuel: the Go loop runs forever.  In particular it never
posts `ErrNoCharacterPoly`: no branch of the worker body ever produces
that error (`err` is only ever `nil` or `ErrZeroDivision` in the
source), contradicting the claim that the worker raises it and `Schoof`
surfaces it. -/
theorem C4_no_character_poly_never_raised :
    ∀ fuel : Nat,
      TraceMod { P := 5, A := 0, B := 0 : Curve } 3 fuel = none := by
  have hh : Monic (DivPoly { P := 5, A := 0, B := 0 : Curve } 3) 5 =
      [0, 0, 0, 0, 1] := by decide
  have hb0 : traceBody { P := 5, A := 0, B := 0 : Curve } 3 [0, 0, 0, 0, 1] =
      .zeroDiv [0, 0, 0, 2] := by decide
  have hg0 : GCD [0, 0, 0, 0, 1] [0, 0, 0, 2] 5 = [0, 0, 0, 1] := by decide
  have hb1 : traceBody { P := 5, A := 0, B := 0 : Curve } 3 [0, 0, 0, 1] =
      .zeroDiv [0] := by decide
  have hg1 : GCD [0, 0, 0, 1] [0] 5 = [0, 0, 0, 1] := by decide
  have hloop1 : ∀ n, traceLoop { P := 5, A := 0, B := 0 : Curve } 3 n
      [0, 0, 0, 1] = none := by
    intro n
    induction n with
    | zero => rfl
    | succ k ih =>
      simp only [traceLoop]
      rw [hb1]
      show traceLoop _ 3 k (GCD [0, 0, 0, 1] [0] 5) = none
      rw [hg1]
      exact ih
  intro fuel
  show traceLoop _ 3 fuel (Monic (DivPoly _ 3) 5) = none
  rw [hh]
  cases fuel with
  | zero => rfl
  | succ k =>
    simp only [traceLoop]
    rw [hb0]
    show traceLoop _ 3 k (GCD [0, 0, 0, 0, 1] [0, 0, 0, 2] 5) = none
    rw [hg0]
    exact hloop1 k


/-- Soundness of the tortoise-and-hare loop: any candidate logarithm it
returns has already passed the `ScalarMult` verification. -/
theorem rhoInner_sound (c : Curve) (px py hx hy : Int) :
    ∀ (fuel : Nat) (w1 w2 : Int × Int × Int × Int) (k : Int),
      rhoInner c px py hx hy fuel w1 w2 = some k →
      ScalarMult c px py k = (hx, hy) := by
  intro fuel
  induction fuel with
  | zero => intro w1 w2 k h; exact absurd h (by simp [rhoInner])
  | succ n ih =>
    intro w1 w2 k h
    simp only [rhoInner] at h
    split at h
    · split at h
      · exact absurd h (by simp)
      · split at h
        · split at h
          · rename_i ht
            injection h with hk
            subst hk
            exact Prod.ext_iff.mpr ⟨ht.1, ht.2⟩
          · exact absurd h (by simp)
        · split at h
          · rename_i ht
            injection h with hk
            subst hk
            exact Prod.ext_iff.mpr ⟨ht.1, ht.2⟩
          · exact absurd h (by simp)
    · exact ih _ _ k h

/-- Soundness of the restart loop over the random stream. -/
theorem rhoRounds_sound (c : Curve) (px py hx hy : Int) :
    ∀ (rnds : List ((Int × Int) × Int × Int)) (k : Int),
      rhoRounds c px py hx hy rnds = some k →
      ScalarMult c px py k = (hx, hy) := by
  intro rnds
  induction rnds with
  | nil => intro k h; exact absurd h (by simp [rhoRounds])
  | cons r rest ih =>
    intro k h
    obtain ⟨⟨a1, b1⟩, a2, b2⟩ := r
    simp only [rhoRounds] at h
    cases hinner : rhoInner c px py hx hy 1000
        (rhoSetup c px py hx hy a1 b1) (rhoSetup c px py hx hy a2 b2) with
    | some kk =>
      rw [hinner] at h
      injection h with hk
      subst hk
      exact rhoInner_sound c px py hx hy 1000 _ _ _ hinner
    | none =>
      rw [hinner] at h
      exact ih k h

/-- C10: every non-`none` result `k` of `PollardRho` satisfies
`ScalarMult (px, py) k = (hx, hy)` — the routine verifies each candidate
by a scalar multiplication before returning it, for every curve, input
point and random stream. -/
theorem C10_pollard_rho_verified (c : Curve) (px py hx hy : Int)
    (rnds : List ((Int × Int) × Int × Int)) (k : Int)
    (hres : PollardRho c px py hx hy rnds = some k) :
    ScalarMult c px py k = (hx, hy) := by
  unfold PollardRho at hres
  split_ifs at hres with hon
  exact rhoRounds_sound c px py hx hy rnds k hres

/-- Witness for C10: on the curve `y² = x³ + 4x + 20` over 𝔽₂₉ with
`N = 37`, `G = (1, 5)` and `H = 7·G = (24, 22)`, the stream
`[(1, 2), (3, 4)]` makes `PollardRho` return `7`, and indeed
`7·G = (24, 22)`. -/
theorem C10_pollard_rho_verified_witness :
    PollardRho toyCurve 1 5 24 22 [((1, 2), 3, 4)] = some 7 ∧
    ScalarMult toyCurve 1 5 7 = (24, 22) :=
  ⟨by decide,
   C10_pollard_rho_verified toyCurve 1 5 24 22 [((1, 2), 3, 4)] 7 (by decide)⟩

/-- C9: on the documented ECDLP test curve (`p = 7919`, `A = 1001`,
`B = 75`, `N = 7889`, `G = (4023, 6036)`), calling `PohligHellman` with
`P = (3747, 3894) = 23·G` and `H = G` makes the `N = 23` sub-problem
unsolvable, `Shank` returns `none`, and the routine returns early with
the curve's `N` field still overwritten by the last prime-power factor
`23` — not the original `7889` it held before the call. -/
theorem C9_pohlig_hellman_n_mutation :
    PohligHellman dlpCurve 3747 3894 4023 6036 = (none, 23) ∧
    dlpCurve.N = 7889 ∧ (23 : Int) ≠ 7889 := by
  refine ⟨by decide, rfl, by decide⟩

/-- Witness for C3: the concrete failure from the counterexample, in
𝔽₅[x]/(x³) together with the `TraceMod` state of the `p = 5` curve. -/
theorem C3_divpolyfactor_witness :
    (([0] : Poly) ≠ [0, 1, 2] ∧ (5 : Int) ≠ 1 ∧
     ModInverse (Poly.Sub [0, 1, 2] [0] 5) [0, 0, 0, 1] 5 = none ∧
     ModInverse (MulInt (qpoly [0, 0, 0, 1] 5 (Poly.Mul [0] [0, 0, 0, 1] 5)) 2 5)
        [0, 0, 0, 1] 5 = none ∧
     traceBody { P := 5, A := 0, B := 0 : Curve } 3 [0, 0, 0, 0, 1] =
        .zeroDiv [0, 0, 0, 2]) ∧
    (EndoAdd [0, 0, 0, 1] 5 0 [0, 0, 0, 1] (some ([0], [0]))
        (some ([0, 1, 2], [1])) = .error (Poly.Sub [0, 1, 2] [0] 5) ∧
     1 < (egcdPolyLoop (([0, 0, 0, 1] : Poly).length +
        (Poly.Sub [0, 1, 2] [0] 5).length + 2) [0, 0, 0, 1]
        (Poly.Sub [0, 1, 2] [0] 5) [1] [0] [0] [1] 5).1.length ∧
     EndoDouble [0, 0, 0, 1] 5 0 [0, 0, 0, 1] (some ([0], [0])) =
        .error (MulInt (qpoly [0, 0, 0, 1] 5 (Poly.Mul [0] [0, 0, 0, 1] 5)) 2 5) ∧
     traceLoop { P := 5, A := 0, B := 0 : Curve } 3 1 [0, 0, 0, 0, 1] =
        traceLoop { P := 5, A := 0, B := 0 : Curve } 3 0
          (GCD [0, 0, 0, 0, 1] [0, 0, 0, 2]
            ({ P := 5, A := 0, B := 0 : Curve }).P)) :=
  ⟨⟨by decide, by decide, by decide, by decide, by decide⟩,
   C3_divpolyfactor [0, 0, 0, 1] 5 0 [0, 0, 0, 1] [0] [0] [0, 1, 2] [1] [0] [0]
     { P := 5, A := 0, B := 0 } 3 0 [0, 0, 0, 0, 1] [0, 0, 0, 2]
     (by decide) (by decide) (by decide) (by decide) (by decide)⟩

end ECC
